import Mathlib

/-! # go-get-proxy

A shallow embedding of `proxy.go` and `tar.go`: the request handler `proxy`,
the freshness test `isNewEnough`, the fetch coordinator `getPackage`
(sequentially and as interleaved threads) and the archive writer `makeTar`,
together with the parts of the Go library they call (`path.Clean`,
`filepath.Join`, `filepath.Walk`, `fmt.Fprintf` without operands).
-/

namespace GoGetProxy

/-! ## Strings -/

/-- Go strings are byte sequences; one `Char` of a `Str` stands for one byte,
so `List.length` is Go's `len`. -/
abbrev Str := List Char

/-- Go `strings.HasPrefix`. -/
def startsWith (s p : Str) : Bool := p.isPrefixOf s

/-- Go `strings.HasSuffix`. -/
def endsWith (s suf : Str) : Bool := suf.isSuffixOf s

/-- Go `strings.Join(elems, "/")`. -/
def joinSlash : List Str → Str
  | [] => []
  | [a] => a
  | a :: b :: r => a ++ '/' :: joinSlash (b :: r)

/-- Go `strings.Split(s, "/")`: the slash-separated segments of `s`. -/
def splitSlash : Str → List Str
  | [] => [[]]
  | c :: t =>
    if c = '/' then [] :: splitSlash t
    else match splitSlash t with
      | [] => [[c]]
      | h :: r => (c :: h) :: r

/-! ## `path.Clean` and `filepath.Join`

`Clean` follows the library's loop over the input with an output buffer `out`
(the written part of its `lazybuf`, so `out.length` is `out.w`) and the index
`dotdot` below which the buffer may not be cut back.  On Unix `filepath.Clean`
is the same function and `filepath.FromSlash` is the identity. -/

/-- The inner loop `for out.w > dotdot && out.index(out.w) != '/' { out.w-- }`,
started at `w`; returns the final `out.w`. -/
def backLoop (out : Str) (dotdot : Nat) : Nat → Nat
  | 0 => 0
  | w + 1 =>
    if w + 1 > dotdot ∧ out.getD (w + 1) '/' ≠ '/' then backLoop out dotdot w else w + 1

/-- The `..` case of `Clean`: cut back to the last slash when possible,
otherwise (for a path that is not rooted) append a `..` element. -/
def dotdotStep (rooted : Bool) (out : Str) (dotdot : Nat) : Str × Nat :=
  if out.length > dotdot then
    (out.take (backLoop out dotdot (out.length - 1)), dotdot)
  else if ¬ rooted then
    let out1 := (if out.length > 0 then out ++ ['/'] else out) ++ ['.', '.']
    (out1, out1.length)
  else
    (out, dotdot)

/-- The separator written before a real path element:
`if rooted && out.w != 1 || !rooted && out.w != 0 { out.append('/') }`. -/
def addSlash (rooted : Bool) (out : Str) : Str :=
  if (rooted ∧ out.length ≠ 1) ∨ (¬ rooted ∧ out.length ≠ 0) then out ++ ['/'] else out

/-- The main loop `for r < n` of `Clean`; `rest` is `path[r:]`.  Every
iteration consumes at least one byte, so `fuel = len(path)` is enough. -/
def cleanLoop (rooted : Bool) : Nat → Str → Str → Nat → Str
  | 0, _, out, _ => out
  | _ + 1, [], out, _ => out
  | fuel + 1, c :: t, out, dotdot =>
    if c = '/' then
      cleanLoop rooted fuel t out dotdot
    else if c = '.' ∧ (t = [] ∨ t.head? = some '/') then
      cleanLoop rooted fuel t out dotdot
    else if c = '.' ∧ t.head? = some '.' ∧ (t.tail = [] ∨ t.tail.head? = some '/') then
      cleanLoop rooted fuel t.tail (dotdotStep rooted out dotdot).1 (dotdotStep rooted out dotdot).2
    else
      cleanLoop rooted fuel ((c :: t).dropWhile (· ≠ '/'))
        (addSlash rooted out ++ (c :: t).takeWhile (· ≠ '/')) dotdot

/-- Go `path.Clean`. -/
def Clean (path : Str) : Str :=
  if path = [] then ['.']
  else
    let out := if path.head? = some '/' then cleanLoop true path.length path.tail ['/'] 1
               else cleanLoop false path.length path [] 0
    if out.length = 0 then ['.'] else out

/-- Go `filepath.Join`: leading empty elements are dropped, the rest is joined
with slashes and cleaned. -/
def Join : List Str → Str
  | [] => []
  | e :: r => if e = [] then Join r else Clean (joinSlash (e :: r))

/-! ## `proxy.go`: constants, clock and file system -/

/-- The constant `modtimeFile` (proxy.go line 19). -/
def modtimeFile : Str := ".go-get-proxy-last".toList

/-- The variable `goPathSrc = filepath.Join(os.Getenv("GOPATH"), "src")` (line 63). -/
def goPathSrc (gopath : Str) : Str := Join [gopath, "src".toList]

/-- The constant `newEnough = 1 * time.Minute`, in nanoseconds (line 65). -/
def newEnough : Int := 1 * 60000000000

def maxDuration : Int := 2 ^ 63 - 1

def minDuration : Int := -(2 ^ 63)

/-- Go `t.Sub(u)` on instants given in nanoseconds: the difference as an
`int64` duration, saturating at the largest and smallest duration. -/
def timeSub (t u : Int) : Int :=
  if t - u > maxDuration then maxDuration
  else if t - u < minDuration then minDuration
  else t - u

inductive Kind where
  | regular | dir | symlink | charDevice | blockDevice | socket | other
  deriving DecidableEq

/-- What happens when the archive writer handles an entry: `tw.WriteHeader`
fails, `os.Open` fails, `io.Copy` fails, or all three succeed. -/
inductive Outcome where
  | ok | headerFails | openFails | copyFails
  deriving DecidableEq

/-- An `os.FileInfo` as `Lstat` returns it, with what the environment answers
when the entry is read: `perm` holds the mode bits of which `Perm()` keeps the
low nine, `kind` is the file type of `Mode()`, `linkTarget` the result of
`os.Readlink`. -/
structure FileInfo where
  kind : Kind
  perm : Nat
  size : Nat
  modTime : Int
  linkTarget : Option Str
  outcome : Outcome
  deriving DecidableEq

/-- A directory tree as `filepath.Walk` sees it: the base name, the `Lstat`
result (`none` when it fails), whether listing the directory fails, and the
entries in the order `ReadDir` returns them. -/
inductive Node where
  | mk (name : Str) (info : Option FileInfo) (readErr : Bool) (children : List Node) : Node

def Node.name : Node → Str
  | .mk n _ _ _ => n

def Node.info : Node → Option FileInfo
  | .mk _ i _ _ => i

def Node.readErr : Node → Bool
  | .mk _ _ e _ => e

def Node.children : Node → List Node
  | .mk _ _ _ c => c

/-- The file system as the program observes it: `mtime p` is the modification
time `os.Stat(p)` reports (`none` when `Stat` fails), `creatable p` tells
whether `os.Create(p)` succeeds, `lstat p` is the tree `filepath.Walk` finds at
`p`. -/
structure FS where
  mtime : Str → Option Int
  creatable : Str → Bool
  lstat : Str → Option Node

/-- The test of lines 74-77: `os.Stat` succeeds and
`time.Now().Sub(fi.ModTime()) < newEnough`. -/
def statFresh (now : Int) (fs : FS) (p : Str) : Bool :=
  match fs.mtime p with
  | some m => decide (timeSub now m < newEnough)
  | none => false

/-- The function `isNewEnough` (lines 67-82) with `src` for `goPathSrc`.  One
unit of fuel is one evaluation of the loop condition; `none` means the fuel
ran out.  Next to the verdict it returns the paths handed to `os.Stat`, in
order. -/
def isNewEnough (src : Str) (now : Int) (fs : FS) : Nat → Str → Option (Bool × List Str)
  | 0, _ => none
  | fuel + 1, dir =>
    if dir.length > src.length then
      if statFresh now fs (Join [dir, modtimeFile]) then
        some (true, [Join [dir, modtimeFile]])
      else
        (isNewEnough src now fs fuel (Join [dir, ['.', '.']])).map
          (fun r => (r.1, Join [dir, modtimeFile] :: r.2))
    else some (false, [])

/-- The function `touchFile` (lines 115-121): `os.Remove` then `os.Create`,
errors ignored.  When the file can be created its modification time becomes
the current time; otherwise (the directory is missing or not writable) nothing
changes. -/
def touchFile (now : Int) (fs : FS) (name : Str) : FS :=
  if fs.creatable name then
    { fs with mtime := fun p => if p = name then some now else fs.mtime p }
  else fs

/-! ## `getPackage` -/

/-- The result of `exec.Command("go", "get", "-u", pkg).CombinedOutput()`:
the text of the error (`none` for exit status 0) and the captured output. -/
structure ExecResult where
  err : Option Str
  out : Str
  deriving DecidableEq

/-- The environment of the process: the value of `GOPATH`, the external
retriever (given the key, the current time and the file system it returns its
result, the file system it leaves behind and the time it took) and
`strconv.Quote` as the verb `%q` applies it. -/
structure Env where
  gopath : Str
  goGet : Str → Int → FS → ExecResult × FS × Nat
  quote : Str → Str

/-- The state shared by all requests: the clock, the file system, the map
`pending` from keys to channels, and for every channel whether its buffer of
capacity one is full.  `fetched` and `calls` are history variables: the keys
the retriever was started with and the keys `getPackage` was called with. -/
structure Shared where
  now : Int
  fs : FS
  pending : List (Str × Nat)
  chans : List Bool
  fetched : List Str
  calls : List Str

/-- The pair `(pkgPath, err)` returned by `getPackage`. -/
inductive Result where
  | ok (path : Str)
  | error (text : Str)
  deriving DecidableEq

/-- Control points of `getPackage` (lines 84-113). -/
inductive Pc where
  /-- line 85: entry -/
  | start
  /-- lines 90-96: about to look the key up under `pendingMu` -/
  | lock
  /-- line 97: about to send on channel `c` -/
  | send (c : Nat)
  /-- line 105: holding the slot of `c`, about to start the retriever -/
  | exec (c : Nat)
  /-- line 105: the retriever is running -/
  | running (c : Nat)
  /-- line 106: about to touch the sentinel -/
  | touch (c : Nat) (res : ExecResult)
  /-- lines 107-112 and the deferred receive of line 98 -/
  | leave (c : Nat) (res : ExecResult)
  /-- returned -/
  | done (r : Result)
  deriving DecidableEq

/-- One call of `getPackage`: its argument and its control point, with three
history variables: how often the call has started the retriever, whether the
test of line 86 found the directory stale, and how often a retriever started by
the call has finished. -/
structure Thread where
  pkg : Str
  pc : Pc
  ran : Nat
  stale : Bool
  finished : Nat
  deriving DecidableEq

/-- The lookup `pending[pkg]`. -/
def lookupChan (pending : List (Str × Nat)) (pkg : Str) : Option Nat :=
  (pending.find? (fun e => e.1 = pkg)).map (·.2)

/-- The error built on line 109 by
`fmt.Errorf("Error running go get for package %q: %v\n\nOutput:\n%s", pkg, err, out)`. -/
def errorText (env : Env) (pkg e out : Str) : Str :=
  "Error running go get for package ".toList ++ env.quote pkg ++ ": ".toList ++ e
    ++ "\n\nOutput:\n".toList ++ out

/-- The variable `root` of line 85. -/
def rootOf (env : Env) (pkg : Str) : Str := Join [goPathSrc env.gopath, pkg]

/-- One step of a call of `getPackage`; `none` when the call cannot move: it
is blocked on the channel, has returned, or `isNewEnough` does not return. -/
def gpStep (env : Env) (s : Shared) (t : Thread) : Option (Shared × Thread) :=
  match t.pc with
  | .start =>
    match isNewEnough (goPathSrc env.gopath) s.now s.fs ((rootOf env t.pkg).length + 1)
        (rootOf env t.pkg) with
    | none => none
    | some (true, _) =>
      some ({ s with calls := s.calls ++ [t.pkg] }, { t with pc := .done (.ok (rootOf env t.pkg)) })
    | some (false, _) =>
      some ({ s with calls := s.calls ++ [t.pkg] }, { t with pc := .lock, stale := true })
  | .lock =>
    match lookupChan s.pending t.pkg with
    | some c => some (s, { t with pc := .send c })
    | none =>
      some ({ s with pending := (t.pkg, s.chans.length) :: s.pending, chans := s.chans ++ [false] },
        { t with pc := .send s.chans.length })
  | .send c =>
    if s.chans.getD c true = false then
      some ({ s with chans := s.chans.set c true }, { t with pc := .exec c })
    else none
  | .exec c =>
    some ({ s with fetched := s.fetched ++ [t.pkg] }, { t with pc := .running c, ran := t.ran + 1 })
  | .running c =>
    let r := env.goGet t.pkg s.now s.fs
    some ({ s with fs := r.2.1, now := s.now + r.2.2 },
      { t with pc := .touch c r.1, finished := t.finished + 1 })
  | .touch c res =>
    some ({ s with fs := touchFile s.now s.fs (Join [rootOf env t.pkg, modtimeFile]) },
      { t with pc := .leave c res })
  | .leave c res =>
    some ({ s with chans := s.chans.set c false },
      { t with pc := .done (match res.err with
          | some e => .error (errorText env t.pkg e res.out)
          | none => .ok (rootOf env t.pkg)) })
  | .done _ => none

/-- Run a call for at most `n` steps, stopping when it has returned. -/
def gpRun (env : Env) : Nat → Shared → Thread → Option (Shared × Thread)
  | 0, s, t => some (s, t)
  | n + 1, s, t =>
    match t.pc with
    | .done _ => some (s, t)
    | _ =>
      match gpStep env s t with
      | none => none
      | some st => gpRun env n st.1 st.2

/-- The function `getPackage` run on its own from state `s`: its result and the
state it leaves, or `none` when it does not return. -/
def getPackage (env : Env) (s : Shared) (pkg : Str) : Option (Result × Shared) :=
  match gpRun env 7 s ⟨pkg, .start, 0, false, 0⟩ with
  | some (s1, ⟨_, .done r, _, _, _⟩) => some (r, s1)
  | _ => none

/-! ### Interleaved calls -/

/-- Several calls of `getPackage` running against one shared state. -/
structure Sys where
  shared : Shared
  threads : List Thread

/-- A scheduling decision: thread `i` takes its next step, or time passes. -/
inductive Action where
  | run (i : Nat)
  | tick (dt : Nat)
  deriving DecidableEq

def sysStep (env : Env) (σ : Sys) : Action → Option Sys
  | .tick dt => some { σ with shared := { σ.shared with now := σ.shared.now + dt } }
  | .run i =>
    match σ.threads.get? i with
    | none => none
    | some t =>
      match gpStep env σ.shared t with
      | none => none
      | some st => some ⟨st.1, σ.threads.set i st.2⟩

def sysRun (env : Env) : Sys → List Action → Option Sys
  | σ, [] => some σ
  | σ, a :: as =>
    match sysStep env σ a with
    | none => none
    | some σ1 => sysRun env σ1 as

/-- The process right after start-up: `pending` is empty, no channel exists,
and one call per key in `pkgs` is about to begin. -/
def initSys (now : Int) (fs : FS) (pkgs : List Str) : Sys :=
  ⟨⟨now, fs, [], [], [], []⟩, pkgs.map (fun p => ⟨p, .start, 0, false, 0⟩)⟩

/-- The call holds the slot of channel `c`: it has sent on `c` and not yet
received. -/
def Pc.holds (c : Nat) : Pc → Bool
  | .exec c1 => c1 = c
  | .running c1 => c1 = c
  | .touch c1 _ => c1 = c
  | .leave c1 _ => c1 = c
  | _ => false

/-- The channel a call has obtained from `pending`, if it has one. -/
def Pc.chan : Pc → Option Nat
  | .send c => some c
  | .exec c => some c
  | .running c => some c
  | .touch c _ => some c
  | .leave c _ => some c
  | _ => none

/-! ## `tar.go` -/

def c_ISDIR : Nat := 0o40000
def c_ISFIFO : Nat := 0o10000
def c_ISREG : Nat := 0o100000
def c_ISLNK : Nat := 0o120000
def c_ISBLK : Nat := 0o60000
def c_ISCHR : Nat := 0o20000
def c_ISSOCK : Nat := 0o140000

/-- The fields of `tar.Header` the program sets. -/
structure Header where
  name : Str
  mode : Nat
  uid : Nat
  gid : Nat
  size : Nat
  modTime : Int
  typeflag : Char
  linkname : Str
  uname : Str
  gname : Str
  deriving DecidableEq

inductive TarError where
  | symlinkNoName | readlink | unknownMode | writeHeader | open | copy
  deriving DecidableEq

/-- `fi.Mode().Perm()`. -/
def FileInfo.Perm (fi : FileInfo) : Nat := fi.perm &&& 0o777

/-- `fi.IsDir()`. -/
def FileInfo.IsDir (fi : FileInfo) : Bool := fi.kind = .dir

/-- `a &^ b` on non-negative integers. -/
def andNot (a b : Nat) : Nat := a ^^^ (a &&& b)

/-- The function `tarFileInfoHeader` (tar.go lines 33-75); `sysStat` is nil in
this program.  `name` is `fi.Name()`. -/
def tarFileInfoHeader (name : Str) (fi : FileInfo) (filename : Str) : Except TarError Header :=
  let h : Header :=
    { name := name, modTime := fi.modTime, mode := fi.Perm, uid := 0, gid := 0, size := 0,
      typeflag := Char.ofNat 0, linkname := [], uname := [], gname := [] }
  match fi.kind with
  | .regular => .ok { h with mode := h.mode ||| c_ISREG, typeflag := '0', size := fi.size }
  | .dir => .ok { h with typeflag := '5', mode := h.mode ||| c_ISDIR }
  | .symlink =>
    if filename = [] then .error .symlinkNoName
    else match fi.linkTarget with
      | none => .error .readlink
      | some targ => .ok { h with typeflag := '2', mode := h.mode ||| c_ISLNK, linkname := targ }
  | .charDevice => .ok { h with mode := h.mode ||| c_ISCHR, typeflag := '3' }
  | .blockDevice => .ok { h with mode := h.mode ||| c_ISBLK, typeflag := '4' }
  | .socket => .ok { h with mode := h.mode ||| c_ISSOCK }
  | .other => .error .unknownMode

/-- What a `filepath.WalkFunc` returns. -/
inductive WalkErr where
  | nil
  | skipDir
  | err (e : TarError)
  | panic
  deriving DecidableEq

/-- Lines 92-97: the name of `path` relative to `workdir`. -/
def relName (workdir path : Str) : Str :=
  let name := path.drop workdir.length
  if startsWith name ['/'] then name.drop 1 else name

/-- Lines 124-135: the header as it is written. -/
def normalize (fi : FileInfo) (name : Str) (hdr : Header) : Header :=
  let hdr := { hdr with name := name, uname := "root".toList, gname := "root".toList,
                        uid := 0, gid := 0 }
  if fi.Perm &&& 0o111 ≠ 0 then { hdr with mode := andNot hdr.mode 0o777 ||| 0o755 }
  else { hdr with mode := andNot hdr.mode 0o777 ||| 0o644 }

/-- The walk function of `makeTar` (lines 81-150).  `tw` is the list of headers
written to the archive so far; `base` is `fi.Name()`. -/
def tarVisit (workdir path base : Str) (info : Option FileInfo) (tw : List Header) :
    List Header × WalkErr :=
  match info with
  | none => (tw, .nil)
  | some fi =>
    if ¬ startsWith path workdir then (tw, .panic)
    else
      let name := relName workdir path
      if name = modtimeFile then (tw, .nil)
      else if fi.IsDir then
        if name ≠ [] then (tw, .skipDir) else (tw, .nil)
      else if ¬ endsWith name ".go".toList ∧ fi.size > 10 <<< 10 then (tw, .nil)
      else if fi.size > 1 <<< 20 then (tw, .nil)
      else
        match tarFileInfoHeader base fi path with
        | .error e => (tw, .err e)
        | .ok hdr =>
          match fi.outcome with
          | .headerFails => (tw, .err .writeHeader)
          | .openFails => (tw ++ [normalize fi name hdr], .err .open)
          | .copyFails => (tw ++ [normalize fi name hdr], .err .copy)
          | .ok => (tw ++ [normalize fi name hdr], .nil)

mutual
/-- The function `walk` of `path/filepath`. -/
def walk (workdir path : Str) : Node → List Header → List Header × WalkErr
  | .mk base none _ _, tw => tarVisit workdir path base none tw
  | .mk base (some fi) readErr children, tw =>
    if ¬ fi.IsDir then tarVisit workdir path base (some fi) tw
    else
      let r := tarVisit workdir path base (some fi) tw
      if readErr ∨ r.2 ≠ .nil then r
      else walkList workdir path children r.1
/-- The loop of `walk` over the entries of the directory `path`. -/
def walkList (workdir path : Str) : List Node → List Header → List Header × WalkErr
  | [], tw => (tw, .nil)
  | .mk base none _ _ :: ns, tw =>
    let r := tarVisit workdir (Join [path, base]) base none tw
    if r.2 ≠ .nil ∧ r.2 ≠ .skipDir then r else walkList workdir path ns r.1
  | .mk base (some fi) readErr children :: ns, tw =>
    let r := walk workdir (Join [path, base]) (.mk base (some fi) readErr children) tw
    if r.2 ≠ .nil ∧ (¬ fi.IsDir ∨ r.2 ≠ .skipDir) then r else walkList workdir path ns r.1
end

/-- The function `makeTar` (lines 77-162): the headers written to the archive
and the error returned (`nil` for none).  Closing the archive and the
compressor is taken to succeed. -/
def makeTar (fs : FS) (workdir : Str) : List Header × WalkErr :=
  let r := match fs.lstat workdir with
    | none => tarVisit workdir workdir [] none []
    | some root => walk workdir workdir root []
  if r.2 = .skipDir then (r.1, .nil) else r

/-! ## The request handler -/

/-- Bytes that open a flag, width, precision or argument index of a formatting
directive, and bytes that start a multi-byte verb. -/
def directiveByte (c : Char) : Bool :=
  c ∈ "#0+- 123456789.*[".toList || c.toNat ≥ 128

/-- Go `fmt.Fprintf(w, format)` called with a format and no operands: text is
copied, `%%` gives a percent sign, a verb with nothing to print gives
`%!v(MISSING)` and a percent sign at the very end gives `%!(NOVERB)`.  The
result is `none` for a directive with flags, width, precision, an argument
index or a multi-byte verb, which this model does not cover. -/
def fprintfNoArgs : Str → Option Str
  | [] => some []
  | [c] => if c = '%' then some "%!(NOVERB)".toList else some [c]
  | c :: v :: t =>
    if c ≠ '%' then (fprintfNoArgs (v :: t)).map (c :: ·)
    else if v = '%' then (fprintfNoArgs t).map ('%' :: ·)
    else if directiveByte v then none
    else (fprintfNoArgs t).map (fun r => "%!".toList ++ v :: "(MISSING)".toList ++ r)

/-- What the handler wrote as response body. -/
inductive Body where
  | text (s : Str)
  | archive (entries : List Header)
  | unmodelled
  deriving DecidableEq

/-- The response: status code, the `Content-Type` the handler set (if any) and
the body. -/
structure Response where
  status : Nat
  contentType : Option Str
  body : Body
  deriving DecidableEq

/-- The handler `proxy` (proxy.go lines 30-61) on the request path `upath`;
`none` when `getPackage` does not return. -/
def proxy (env : Env) (s : Shared) (upath : Str) : Option (Response × Shared) :=
  if upath = "/favicon.ico".toList ∨ upath = "/robots.txt".toList then
    some (⟨200, none, .text []⟩, s)
  else if upath.length < 2 then
    some (⟨200, none, .text "<html><body>go get proxy</body></html>".toList⟩, s)
  else if Clean upath ≠ upath then
    some (⟨500, some "text/plain; charset=utf-8".toList, .text "invalid path\n".toList⟩, s)
  else
    match getPackage env s (upath.drop 1) with
    | none => none
    | some (.error text, s1) =>
      some (⟨500, some "text/plain; charset=utf-8".toList,
        match fprintfNoArgs text with
        | some b => .text b
        | none => .unmodelled⟩, s1)
    | some (.ok path, s1) =>
      some (⟨200, some "application/x-tar".toList, .archive (makeTar s1.fs path).1⟩, s1)

/-! ## Example inputs -/

/-- A file system without sentinels in which every file can be created. -/
def exFS : FS := ⟨fun _ => none, fun _ => true, fun _ => none⟩

/-- An environment with `GOPATH=/go` whose retriever fails after two seconds
with `exit status 1` and the output `50%`, leaving the file system as it was. -/
def exEnv : Env :=
  ⟨"/go".toList,
   fun _ _ fs => (⟨some "exit status 1".toList, "50%".toList⟩, fs, 2000000000),
   fun s => '"' :: s ++ ['"']⟩

/-- The shared state of a process that has not served a request yet. -/
def exShared : Shared := ⟨1000, exFS, [], [], [], []⟩

/-- A file system whose only sentinel lies in `/go/src/a` and was written at
time 0. -/
def exSentinelFS : FS :=
  ⟨fun p => if p = "/go/src/a/.go-get-proxy-last".toList then some 0 else none,
   fun _ => true, fun _ => none⟩

/-- The state in which the first call for `pkg` leaves `exShared`: two seconds
have passed, the sentinel of `/go/src/pkg` has been written, and `pending` maps
`pkg` to channel 0, whose buffer is empty. -/
def exAfter : Shared :=
  ⟨1000 + (2000000000 : Nat),
   touchFile (1000 + (2000000000 : Nat)) exFS (Join [rootOf exEnv "pkg".toList, modtimeFile]),
   [("pkg".toList, 0)], [false], ["pkg".toList], ["pkg".toList]⟩

/-- The error the first call for `pkg` returns in `exEnv`. -/
def exError : Str :=
  "Error running go get for package \"pkg\": exit status 1\n\nOutput:\n50%".toList

/-- A directory entry for a regular file with mode 0644. -/
def exFile (name : Str) (size : Nat) : Node :=
  .mk name (some ⟨.regular, 0o644, size, 0, none, .ok⟩) false []

/-- A directory entry for a subdirectory with mode 0755. -/
def exDir (name : Str) (children : List Node) : Node :=
  .mk name (some ⟨.dir, 0o755, 4096, 0, none, .ok⟩) false children

/-- A file system in which `/go/src/pkg` holds the tree `root`. -/
def exTreeFS (root : Node) : FS :=
  ⟨fun _ => none, fun _ => true, fun p => if p = "/go/src/pkg".toList then some root else none⟩

/-- The directory of the archive example of the specification: a source file of
200 bytes, a file of 50 KiB that is no source file, the sentinel, and a
subdirectory with a file in it. -/
def exPkgTree : Node :=
  exDir "pkg".toList
    [exFile ".go-get-proxy-last".toList 0,
     exFile "big.bin".toList 51200,
     exFile "main.go".toList 200,
     exDir "sub".toList [exFile "inner.go".toList 10]]

/-- A directory that holds a directory named like the sentinel, with a source
file in it. -/
def exSentinelDirTree : Node :=
  exDir "pkg".toList
    [exDir ".go-get-proxy-last".toList [exFile "x.go".toList 12]]

/-- A directory that holds a named pipe `a` and a small source file `b.go`. -/
def exPipeTree : Node :=
  exDir "pkg".toList
    [.mk "a".toList (some ⟨.other, 0o644, 0, 0, none, .ok⟩) false [],
     exFile "b.go".toList 12]

/-- An environment with `GOPATH=/go` whose retriever succeeds after two seconds
and leaves the file system as it was. -/
def exOkEnv : Env :=
  ⟨"/go".toList, fun _ _ fs => (⟨none, "ok".toList⟩, fs, 2000000000), fun s => '"' :: s ++ ['"']⟩

/-- Two calls for the key `pkg` in a process that has served no request. -/
def exTwoCalls : Sys := initSys 1000 exFS ["pkg".toList, "pkg".toList]

/-- A schedule for two calls: both test freshness, then the first call runs to
its end, then the second. -/
def exSchedule : List Action :=
  [.run 0, .run 1,
   .run 0, .run 0, .run 0, .run 0, .run 0, .run 0,
   .run 1, .run 1, .run 1, .run 1, .run 1, .run 1]

/-- The state at the end of `exSchedule`: both calls have returned. -/
def exFinal : Sys := (sysRun exOkEnv exTwoCalls exSchedule).getD exTwoCalls

/-- A call for `pkg` that found the directory stale, ran one retriever to its
end and returned the path. -/
def exReturned : Thread :=
  ⟨"pkg".toList, .done (.ok "/go/src/pkg".toList), 1, true, 1⟩

/-- A process whose file system has no directory for the key, so that no
sentinel can be created. -/
def exNoDirShared : Shared := ⟨1000, ⟨fun _ => none, fun _ => false, fun _ => none⟩, [], [], [], []⟩

/-- A directory that holds the executable script `a.sh` (mode 0755) and the
text file `b.txt` (mode 0644). -/
def exModeTree : Node :=
  exDir "pkg".toList
    [.mk "a.sh".toList (some ⟨.regular, 0o755, 10, 0, none, .ok⟩) false [],
     exFile "b.txt".toList 20]

/-- The header `makeTar` writes for the script `a.sh` of `exModeTree`. -/
def exScriptHeader : Header :=
  { name := "a.sh".toList, mode := 0o100755, uid := 0, gid := 0, size := 10, modTime := 0,
    typeflag := '0', linkname := [], uname := "root".toList, gname := "root".toList }

/-! ## Path elements

Definitions used to reason about `Clean`: the loop is read element by element
(`elemStep`), and its buffer is described by a stack of path elements: `d`
leading `..` elements followed by the segments `segs` (`render`). -/

/-- A path segment that `Clean` keeps as it is: not empty, without a slash and
neither `.` nor `..`.  These are also the names a directory entry can have. -/
def NormalSeg (s : Str) : Prop := s ≠ [] ∧ '/' ∉ s ∧ s ≠ ['.'] ∧ s ≠ ['.', '.']

instance decNormalSeg (s : Str) : Decidable (NormalSeg s) := by
  unfold NormalSeg; infer_instance

/-- The effect of one path element `e` on the buffer and on `dotdot`. -/
def elemStep (rooted : Bool) (st : Str × Nat) (e : Str) : Str × Nat :=
  if e = [] ∨ e = ['.'] then st
  else if e = ['.', '.'] then dotdotStep rooted st.1 st.2
  else (addSlash rooted st.1 ++ e, st.2)

/-- The segments after the first slash of a string that starts with one. -/
def afterSlash : Str → List Str
  | [] => []
  | _ :: t => splitSlash t

def dots (d : Nat) : List Str := List.replicate d ['.', '.']

/-- The buffer that holds `d` elements `..` followed by the segments `segs`. -/
def render (rooted : Bool) (d : Nat) (segs : List Str) : Str :=
  (if rooted then ['/'] else []) ++ joinSlash (dots d ++ segs)

/-- The value of `dotdot` that goes with `render rooted d segs`. -/
def ddOf (rooted : Bool) (d : Nat) : Nat :=
  if rooted then 1 else (joinSlash (dots d)).length

/-- The effect of one path element on the stack of elements. -/
def absStep (rooted : Bool) (st : Nat × List Str) (e : Str) : Nat × List Str :=
  if e = [] ∨ e = ['.'] then st
  else if e = ['.', '.'] then
    if st.2 ≠ [] then (st.1, st.2.dropLast)
    else if ¬ rooted then (st.1 + 1, [])
    else st
  else (st.1, st.2 ++ [e])

def PlainSeg (s : Str) : Prop := s ≠ [] ∧ '/' ∉ s

def Good (rooted : Bool) (st : Nat × List Str) : Prop :=
  (rooted = true → st.1 = 0) ∧ ∀ s ∈ st.2, PlainSeg s

/-- The stack of elements `Clean` is left with after reading `body`. -/
def cleanElems (rooted : Bool) (body : Str) : Nat × List Str :=
  (splitSlash body).foldl (absStep rooted) (0, [])

/-- The result of `Clean` for a final stack: the single dot when nothing was
written. -/
def finish (rooted : Bool) (st : Nat × List Str) : Str :=
  if render rooted st.1 st.2 = [] then ['.'] else render rooted st.1 st.2

/-- Canonical stacks: a rooted path has no leading `..` and every kept segment
is a normal segment. -/
def Canon (rooted : Bool) (st : Nat × List Str) : Prop :=
  (rooted = true → st.1 = 0) ∧ ∀ s ∈ st.2, NormalSeg s

/-- The registry and the channels after the lookup of lines 90-96. -/
def registered (s : Shared) (pkg : Str) : Nat × List (Str × Nat) × List Bool :=
  match lookupChan s.pending pkg with
  | some c => (c, s.pending, s.chans)
  | none => (s.chans.length, (pkg, s.chans.length) :: s.pending, s.chans ++ [false])

/-! ## Archive entries -/

/-- The size filter of lines 110-117: the file is kept. -/
def keepFile (name : Str) (fi : FileInfo) : Prop :=
  ¬ (¬ endsWith name ".go".toList ∧ fi.size > 10 <<< 10) ∧ ¬ fi.size > 1 <<< 20

instance decKeepFile (name : Str) (fi : FileInfo) : Decidable (keepFile name fi) := by
  unfold keepFile; infer_instance

/-- Lines 98-149 of the walk function, for an entry whose relative name is
`name`. -/
def visitNamed (name path base : Str) (fi : FileInfo) (tw : List Header) :
    List Header × WalkErr :=
  if name = modtimeFile then (tw, .nil)
  else if fi.IsDir then
    if name ≠ [] then (tw, .skipDir) else (tw, .nil)
  else if ¬ endsWith name ".go".toList ∧ fi.size > 10 <<< 10 then (tw, .nil)
  else if fi.size > 1 <<< 20 then (tw, .nil)
  else
    match tarFileInfoHeader base fi path with
    | .error e => (tw, .err e)
    | .ok hdr =>
      match fi.outcome with
      | .headerFails => (tw, .err .writeHeader)
      | .openFails => (tw ++ [normalize fi name hdr], .err .open)
      | .copyFails => (tw ++ [normalize fi name hdr], .err .copy)
      | .ok => (tw ++ [normalize fi name hdr], .nil)

/-- The header `h` is what the walk function writes for a file with the
`Lstat` result `fi` under the name `name`. -/
def Written (fi : FileInfo) (name : Str) (h : Header) : Prop :=
  ¬ fi.IsDir ∧ ∃ path base h0, tarFileInfoHeader base fi path = .ok h0 ∧ h = normalize fi name h0

mutual
/-- The nodes of a tree whose root the walk reaches under `path`: for every
node with an `Lstat` result, the path under which the walk reaches it, its base
name and that result. -/
def nodesAt (path : Str) : Node → List (Str × Str × FileInfo)
  | .mk base info _ children =>
    info.toList.map (fun fi => (path, base, fi)) ++ nodesAtList path children
/-- The nodes of the trees listed in the directory `path`. -/
def nodesAtList (path : Str) : List Node → List (Str × Str × FileInfo)
  | [] => []
  | .mk base info e children :: ns =>
    nodesAt (Join [path, base]) (.mk base info e children) ++ nodesAtList path ns
end

/-- The header `h` is what the walk function writes when it is called on
`path` with the `Lstat` result `fi` of a file with base name `base`: the header
of `tarFileInfoHeader` for `fi`, normalized under the name of `path` relative
to the working directory `w`. -/
def WrittenAt (w path base : Str) (fi : FileInfo) (h : Header) : Prop :=
  ¬ fi.IsDir ∧ ∃ h0, tarFileInfoHeader base fi path = .ok h0
    ∧ h = normalize fi (relName w path) h0

/-- The names in a directory listing are normal segments and pairwise
different, and so are the names one level below. -/
def WFList (cs : List Node) : Prop :=
  (cs.map Node.name).Nodup ∧ ∀ c ∈ cs, NormalSeg c.name ∧ ∀ g ∈ c.children, NormalSeg g.name

instance decWFList (cs : List Node) : Decidable (WFList cs) := by
  unfold WFList; infer_instance

/-- A directory path as `getPackage` returns it: a fixed point of `Clean`
other than the single dot. -/
def CleanDir (w : Str) : Prop := Clean w = w ∧ w ≠ ['.']

instance decCleanDir (w : Str) : Decidable (CleanDir w) := by
  unfold CleanDir; infer_instance

/-- The header `h` stems from the entry `c` of the working directory: either
`c` is a file that is not the sentinel, passes the size filter and is written
under its own name, or `c` is a directory named like the sentinel and `h` is
written for a file directly inside it, named `.go-get-proxy-last/<file>`. -/
def FromChild (c : Node) (h : Header) : Prop :=
  (∃ fi, c.info = some fi ∧ c.name ≠ modtimeFile ∧ keepFile c.name fi ∧ h.name = c.name
      ∧ Written fi c.name h)
  ∨ (c.name = modtimeFile ∧ (∃ fi, c.info = some fi ∧ fi.IsDir = true)
      ∧ ∃ g ∈ c.children, ∃ gfi, g.info = some gfi ∧ h.name = modtimeFile ++ '/' :: g.name
          ∧ Written gfi h.name h)

/-! ## Interleaved calls: the invariant -/

/-- The call has not started the retriever yet. -/
def Pc.early : Pc → Bool
  | .start => true
  | .lock => true
  | .send _ => true
  | .exec _ => true
  | _ => false

/-- The call has started the retriever and still holds the slot. -/
def Pc.late : Pc → Bool
  | .running _ => true
  | .touch _ _ => true
  | .leave _ _ => true
  | _ => false

/-- The call holds the slot of some channel. -/
def Pc.holdsSlot : Pc → Bool
  | .exec _ => true
  | .running _ => true
  | .touch _ _ => true
  | .leave _ _ => true
  | _ => false

/-- The history variables of a call fit its control point: a call at the entry
has found nothing yet; between the freshness test and line 105 it has found the
directory stale and started no retriever; while the retriever runs it has
started one that has not finished; afterwards the one it started has finished;
and a call that has returned either found the directory stale and ran one
retriever to its end, or found it fresh and ran none. -/
def phaseOk (t : Thread) : Prop :=
  match t.pc with
  | .start => t.stale = false ∧ t.ran = 0 ∧ t.finished = 0
  | .lock => t.stale = true ∧ t.ran = 0 ∧ t.finished = 0
  | .send _ => t.stale = true ∧ t.ran = 0 ∧ t.finished = 0
  | .exec _ => t.stale = true ∧ t.ran = 0 ∧ t.finished = 0
  | .running _ => t.stale = true ∧ t.ran = 1 ∧ t.finished = 0
  | .touch _ _ => t.stale = true ∧ t.ran = 1 ∧ t.finished = 1
  | .leave _ _ => t.stale = true ∧ t.ran = 1 ∧ t.finished = 1
  | .done _ => (t.stale = true ∧ t.ran = 1 ∧ t.finished = 1)
      ∨ (t.stale = false ∧ t.ran = 0 ∧ t.finished = 0)

/-- The invariant of the interleaved system: a call that has a channel has the
one `pending` holds for its key; a channel's buffer is full exactly when one
call holds its slot, and no two calls do; the retriever was started as often as
the calls together say; the history variables of every call fit its control
point; and `pending` has an entry for the key of every call that has started
the retriever. -/
def Inv (σ : Sys) : Prop :=
  (∀ t ∈ σ.threads, ∀ c, t.pc.chan = some c → lookupChan σ.shared.pending t.pkg = some c)
  ∧ (∀ c, σ.threads.countP (fun t => t.pc.holds c)
        = if σ.shared.chans.getD c false = true then 1 else 0)
  ∧ σ.shared.fetched.length = (σ.threads.map (fun t => t.ran)).sum
  ∧ ∀ t ∈ σ.threads,
      phaseOk t ∧ (1 ≤ t.ran → ∃ c, lookupChan σ.shared.pending t.pkg = some c)

/-! ## Lemmas on `Clean` and `Join` -/

theorem splitSlash_ne_nil (s : Str) : splitSlash s ≠ [] := by
  cases s with
  | nil => simp [splitSlash]
  | cons c t =>
    simp only [splitSlash]
    split
    · simp
    · split <;> simp

theorem splitSlash_cons_slash (t : Str) : splitSlash ('/' :: t) = [] :: splitSlash t := by
  simp [splitSlash]

theorem splitSlash_cons_other (c : Char) (t : Str) (hc : c ≠ '/') :
    splitSlash (c :: t) = (c :: (splitSlash t).headD []) :: (splitSlash t).tail := by
  simp only [splitSlash, if_neg hc]
  split
  · rename_i h; exact absurd h (splitSlash_ne_nil t)
  · rename_i h r heq; simp [heq]

theorem cleanLoop_nil (rooted : Bool) (fuel : Nat) (out : Str) (dd : Nat) :
    cleanLoop rooted fuel [] out dd = out := by
  cases fuel <;> simp [cleanLoop]

theorem splitSlash_takeWhile (rest : Str) :
    splitSlash rest
      = rest.takeWhile (· ≠ '/') :: afterSlash (rest.dropWhile (· ≠ '/')) := by
  induction rest with
  | nil => simp [splitSlash, afterSlash]
  | cons c t ih =>
    by_cases hc : c = '/'
    · subst hc
      simp [splitSlash, afterSlash]
    · rw [splitSlash_cons_other c t hc, ih]
      simp [List.takeWhile_cons, List.dropWhile_cons, hc]

theorem dropWhile_head : ∀ (rest : Str) (d : Char) (t : Str),
    rest.dropWhile (· ≠ '/') = d :: t → d = '/' := by
  intro rest
  induction rest with
  | nil => intro d t h; simp at h
  | cons c r ih =>
    intro d t h
    by_cases hc : c = '/'
    · subst hc
      simp [List.dropWhile_cons] at h
      exact h.1.symm
    · simp [List.dropWhile_cons, hc] at h
      exact ih d t (by simpa using h)

theorem takeWhile_nil_iff (t : Str) :
    t.takeWhile (· ≠ '/') = [] ↔ (t = [] ∨ t.head? = some '/') := by
  cases t with
  | nil => simp
  | cons d r =>
    by_cases hd : d = '/'
    · subst hd; simp [List.takeWhile_cons]
    · simp [List.takeWhile_cons, hd]

theorem dropWhile_of_takeWhile_nil (t : Str) (h : t.takeWhile (· ≠ '/') = []) :
    t.dropWhile (· ≠ '/') = t := by
  cases t with
  | nil => simp
  | cons d r =>
    by_cases hd : d = '/'
    · subst hd; simp [List.dropWhile_cons]
    · simp [List.takeWhile_cons, hd] at h

theorem takeWhile_cons_ne (c : Char) (t : Str) (hc : c ≠ '/') :
    (c :: t).takeWhile (· ≠ '/') = c :: t.takeWhile (· ≠ '/') := by
  simp [List.takeWhile_cons, hc]

theorem dropWhile_cons_ne (c : Char) (t : Str) (hc : c ≠ '/') :
    (c :: t).dropWhile (· ≠ '/') = t.dropWhile (· ≠ '/') := by
  simp [List.dropWhile_cons, hc]

theorem elemStep_dot (rooted : Bool) (st : Str × Nat) : elemStep rooted st ['.'] = st := by
  simp [elemStep]

theorem elemStep_dotdot (rooted : Bool) (st : Str × Nat) :
    elemStep rooted st ['.', '.'] = dotdotStep rooted st.1 st.2 := by
  simp [elemStep]

theorem elemStep_other (rooted : Bool) (st : Str × Nat) (e : Str)
    (h0 : e ≠ []) (h1 : e ≠ ['.']) (h2 : e ≠ ['.', '.']) :
    elemStep rooted st e = (addSlash rooted st.1 ++ e, st.2) := by
  unfold elemStep
  rw [if_neg (not_or.mpr ⟨h0, h1⟩), if_neg h2]

theorem elemStep_nil (rooted : Bool) (st : Str × Nat) : elemStep rooted st [] = st := by
  simp [elemStep]

theorem fold_splitSlash (rooted : Bool) (st : Str × Nat) (rest : Str) :
    (splitSlash rest).foldl (elemStep rooted) st
      = (splitSlash (rest.dropWhile (· ≠ '/'))).foldl (elemStep rooted)
          (elemStep rooted st (rest.takeWhile (· ≠ '/'))) := by
  rw [splitSlash_takeWhile rest]
  generalize rest.takeWhile (· ≠ '/') = seg
  cases h : rest.dropWhile (· ≠ '/') with
  | nil => simp [afterSlash, splitSlash, elemStep_nil]
  | cons d t' =>
    have hd : d = '/' := dropWhile_head rest d t' h
    subst hd
    simp [afterSlash, splitSlash_cons_slash, elemStep_nil]

theorem cleanLoop_eq_fold (rooted : Bool) : ∀ (fuel : Nat) (rest out : Str) (dd : Nat),
    rest.length ≤ fuel →
    cleanLoop rooted fuel rest out dd
      = ((splitSlash rest).foldl (elemStep rooted) (out, dd)).1 := by
  intro fuel
  induction fuel with
  | zero =>
    intro rest out dd h
    have : rest = [] := List.length_eq_zero.mp (Nat.le_zero.mp h)
    subst this
    simp [cleanLoop, splitSlash, elemStep_nil]
  | succ fuel ih =>
    intro rest out dd h
    cases rest with
    | nil => simp [cleanLoop, splitSlash, elemStep_nil]
    | cons c t =>
      have hlen : t.length ≤ fuel := by simpa using h
      rw [fold_splitSlash]
      simp only [cleanLoop]
      by_cases hc : c = '/'
      · subst hc
        simp only [if_true]
        rw [ih t out dd hlen]
        simp [elemStep_nil, splitSlash_cons_slash]
      · simp only [if_neg hc]
        have htw := takeWhile_cons_ne c t hc
        have hdw := dropWhile_cons_ne c t hc
        have hdl : (t.dropWhile (· ≠ '/')).length ≤ fuel :=
          le_trans (List.dropWhile_sublist _).length_le hlen
        rw [htw, hdw]
        by_cases h1 : c = '.' ∧ (t = [] ∨ t.head? = some '/')
        · have htn := (takeWhile_nil_iff t).mpr h1.2
          rw [if_pos h1, ih t out dd hlen, htn, dropWhile_of_takeWhile_nil t htn, h1.1,
            elemStep_dot]
        · rw [if_neg h1]
          by_cases h2 : c = '.' ∧ t.head? = some '.' ∧ (t.tail = [] ∨ t.tail.head? = some '/')
          · rw [if_pos h2]
            obtain ⟨hc1, hh, ht⟩ := h2
            cases t with
            | nil => simp at hh
            | cons d t2 =>
              have hd : d = '.' := by simpa using hh
              subst hd
              have htn := (takeWhile_nil_iff t2).mpr ht
              have hl2 : t2.length ≤ fuel := by
                simp at hlen; omega
              simp only [List.tail_cons]
              rw [ih t2 _ _ hl2]
              have e1 : ('.' :: t2).takeWhile (· ≠ '/') = ['.'] := by
                rw [takeWhile_cons_ne _ _ (by decide), htn]
              have e2 : ('.' :: t2).dropWhile (· ≠ '/') = t2 := by
                rw [dropWhile_cons_ne _ _ (by decide), dropWhile_of_takeWhile_nil t2 htn]
              rw [e1, e2, hc1, elemStep_dotdot]
          · rw [if_neg h2, ih _ _ _ hdl]
            have hne1 : c :: t.takeWhile (· ≠ '/') ≠ ['.'] := by
              intro h
              simp at h
              exact h1 ⟨h.1, (takeWhile_nil_iff t).mp (by simpa using h.2)⟩
            have hne2 : c :: t.takeWhile (· ≠ '/') ≠ ['.', '.'] := by
              intro h
              simp at h
              apply h2
              refine ⟨h.1, ?_⟩
              cases t with
              | nil => simp at h
              | cons d t2 =>
                by_cases hd : d = '/'
                · subst hd; simp [List.takeWhile_cons] at h
                · simp [List.takeWhile_cons, hd] at h
                  refine ⟨by simp [h.2.1], ?_⟩
                  simpa using (takeWhile_nil_iff t2).mp (by simpa using h.2.2)
            rw [elemStep_other _ _ _ (List.cons_ne_nil _ _) hne1 hne2]

theorem joinSlash_snoc (E : List Str) (e : Str) (hE : E ≠ []) :
    joinSlash (E ++ [e]) = joinSlash E ++ '/' :: e := by
  induction E with
  | nil => exact absurd rfl hE
  | cons a r ih =>
    cases r with
    | nil => simp [joinSlash]
    | cons b r2 =>
      have := ih (by simp)
      rw [List.cons_append] at this
      show a ++ '/' :: joinSlash (b :: (r2 ++ [e])) = (a ++ '/' :: joinSlash (b :: r2)) ++ '/' :: e
      rw [this]
      simp

theorem joinSlash_ne_nil (E : List Str) (hE : E ≠ []) (hne : ∀ s ∈ E, s ≠ []) :
    joinSlash E ≠ [] := by
  cases E with
  | nil => exact absurd rfl hE
  | cons a r =>
    cases r with
    | nil => simpa [joinSlash] using hne
    | cons b r2 => simp [joinSlash]

theorem joinSlash_append_length (D X : List Str) :
    (joinSlash D).length ≤ (joinSlash (D ++ X)).length := by
  induction X using List.reverseRecOn with
  | nil => simp
  | append_singleton X' x ih =>
    by_cases h : D ++ X' = []
    · have hD : D = [] := (List.append_eq_nil.mp h).1
      subst hD
      simp [joinSlash]
    · rw [← List.append_assoc, joinSlash_snoc _ _ h]
      simp only [List.length_append, List.length_cons]
      omega

theorem dots_ne_nil_elems (d : Nat) : ∀ s ∈ dots d, s ≠ [] := by
  intro s hs
  have := List.eq_of_mem_replicate hs
  subst this
  simp

theorem dots_succ (d : Nat) : dots (d + 1) = dots d ++ [['.', '.']] := by
  simp [dots, List.replicate_succ']

theorem backLoop_spec (a : Str) (c : Char) (t : Str) (dd : Nat)
    (hdd : dd ≤ a.length) (ht : '/' ∉ t) (hc : c = '/' ∨ a.length = dd) :
    ∀ k, k ≤ t.length → backLoop (a ++ c :: t) dd (a.length + k) = a.length := by
  intro k
  induction k with
  | zero =>
    intro _
    cases hlen : a.length with
    | zero => simp [backLoop]
    | succ w =>
      simp only [Nat.add_zero, backLoop]
      rw [if_neg]
      intro ⟨h1, h2⟩
      rcases hc with hc | hc
      · apply h2
        have : (a ++ c :: t).getD (w + 1) '/' = c := by
          rw [← hlen, List.getD_eq_getElem?_getD, List.getElem?_append_right (le_refl _)]
          simp
        rw [this, hc]
      · omega
  | succ k ih =>
    intro hk
    have hk' : k ≤ t.length := by omega
    rw [← Nat.add_assoc]
    simp only [backLoop]
    rw [if_pos, ih hk']
    refine ⟨by omega, ?_⟩
    have hlt : k < t.length := by omega
    have : (a ++ c :: t).getD (a.length + k + 1) '/' = t[k] := by
      rw [List.getD_eq_getElem?_getD]
      rw [List.getElem?_append_right (by omega)]
      have : a.length + k + 1 - a.length = k + 1 := by omega
      rw [this]
      simp [hlt]
    rw [this]
    intro h
    exact ht (h ▸ List.getElem_mem hlt)

theorem dots_eq_nil (d : Nat) (h : dots d = []) : d = 0 := by
  cases d with
  | zero => rfl
  | succ n => simp [dots, List.replicate_succ] at h

theorem elems_ne_nil (rooted : Bool) (st : Nat × List Str) (hg : Good rooted st) :
    ∀ s ∈ dots st.1 ++ st.2, s ≠ [] := by
  intro s hs
  rcases List.mem_append.mp hs with h | h
  · exact dots_ne_nil_elems _ s h
  · exact (hg.2 s h).1

theorem ddOf_le (rooted : Bool) (d : Nat) (X : List Str) :
    ddOf rooted d ≤ ((if rooted then ['/'] else []) ++ joinSlash (dots d ++ X)).length := by
  unfold ddOf
  cases rooted
  · simpa using joinSlash_append_length (dots d) X
  · simp

theorem addSlash_render (rooted : Bool) (st : Nat × List Str) (e : Str)
    (hg : Good rooted st) :
    addSlash rooted (render rooted st.1 st.2) ++ e = render rooted st.1 (st.2 ++ [e]) := by
  unfold render addSlash
  by_cases hE : dots st.1 ++ st.2 = []
  · rw [← List.append_assoc, hE]
    cases rooted <;> simp [joinSlash]
  · have hne := joinSlash_ne_nil _ hE (elems_ne_nil rooted st hg)
    have hlen : (joinSlash (dots st.1 ++ st.2)).length ≠ 0 := by
      simpa [List.length_eq_zero] using hne
    rw [← List.append_assoc (dots st.1), joinSlash_snoc _ _ hE]
    cases rooted
    · simp [hlen]
    · simp [hlen]

theorem dotdotStep_pop (rooted : Bool) (d : Nat) (segs : List Str) (s : Str)
    (hg : Good rooted (d, segs ++ [s])) :
    dotdotStep rooted (render rooted d (segs ++ [s])) (ddOf rooted d)
      = (render rooted d segs, ddOf rooted d) := by
  have hs : PlainSeg s := hg.2 s (by simp)
  obtain ⟨c, t, hct⟩ := List.exists_cons_of_ne_nil hs.1
  have hnoslash : '/' ∉ t := by
    intro h; exact hs.2 (by rw [hct]; exact List.mem_cons_of_mem _ h)
  by_cases hE : dots d ++ segs = []
  · have hd : d = 0 := dots_eq_nil d (List.append_eq_nil.mp hE).1
    have hsegs : segs = [] := (List.append_eq_nil.mp hE).2
    subst hd hsegs
    have hout : render rooted 0 ([] ++ [s]) = (if rooted then ['/'] else []) ++ c :: t := by
      simp [render, dots, joinSlash, hct]
    have hdd : ddOf rooted 0 = ((if rooted then ['/'] else []) : Str).length := by
      cases rooted <;> simp [ddOf, dots, joinSlash]
    have hspec := backLoop_spec (if rooted then ['/'] else []) c t (ddOf rooted 0)
      (le_of_eq hdd) hnoslash (Or.inr hdd.symm) t.length (le_refl _)
    unfold dotdotStep
    rw [hout, if_pos (by rw [hdd]; simp)]
    have hl : ((if rooted then ['/'] else []) ++ c :: t).length - 1
        = ((if rooted then ['/'] else []) : Str).length + t.length := by
      simp
    rw [hl, hspec]
    simp [render, dots, joinSlash]
  · have hout : render rooted d (segs ++ [s])
        = ((if rooted then ['/'] else []) ++ joinSlash (dots d ++ segs)) ++ '/' :: s := by
      unfold render
      rw [← List.append_assoc (dots d), joinSlash_snoc _ _ hE]
      simp
    have hle := ddOf_le rooted d segs
    have hspec := backLoop_spec ((if rooted then ['/'] else []) ++ joinSlash (dots d ++ segs))
      '/' s (ddOf rooted d) hle hs.2 (Or.inl rfl) s.length (le_refl _)
    unfold dotdotStep
    rw [hout, if_pos (by simp only [List.length_append, List.length_cons] at hle ⊢; omega)]
    have hl : (((if rooted then ['/'] else []) ++ joinSlash (dots d ++ segs)) ++ '/' :: s).length - 1
        = ((if rooted then ['/'] else []) ++ joinSlash (dots d ++ segs)).length + s.length := by
      simp only [List.length_append, List.length_cons]; omega
    rw [hl, hspec, List.take_left' rfl]
    rfl

theorem dotdotStep_push (d : Nat) :
    dotdotStep false (render false d []) (ddOf false d)
      = (render false (d + 1) [], ddOf false (d + 1)) := by
  have hr : render false d [] = joinSlash (dots d) := by simp [render]
  have hr1 : render false (d + 1) [] = joinSlash (dots (d + 1)) := by simp [render]
  have hdd : ∀ k, ddOf false k = (joinSlash (dots k)).length := by intro k; simp [ddOf]
  unfold dotdotStep
  rw [hr, hr1, hdd, hdd, if_neg (lt_irrefl _)]
  simp only [Bool.false_eq_true, not_false_eq_true, if_true]
  by_cases h0 : dots d = []
  · have := dots_eq_nil d h0
    subst this
    simp [dots, joinSlash]
  · have hne := joinSlash_ne_nil _ h0 (dots_ne_nil_elems d)
    have hpos : (joinSlash (dots d)).length > 0 := List.length_pos.mpr hne
    rw [if_pos hpos, dots_succ, joinSlash_snoc _ _ h0]
    simp

theorem dotdotStep_root :
    dotdotStep true (render true 0 []) (ddOf true 0) = (render true 0 [], ddOf true 0) := by
  simp [dotdotStep, render, ddOf, dots, joinSlash]

theorem absStep_good (rooted : Bool) (st : Nat × List Str) (e : Str)
    (hg : Good rooted st) (he : '/' ∉ e) : Good rooted (absStep rooted st e) := by
  unfold absStep
  by_cases h1 : e = [] ∨ e = ['.']
  · rw [if_pos h1]; exact hg
  · rw [if_neg h1]
    by_cases h2 : e = ['.', '.']
    · rw [if_pos h2]
      by_cases h3 : st.2 ≠ []
      · rw [if_pos h3]
        exact ⟨hg.1, fun s hs => hg.2 s (List.mem_of_mem_dropLast hs)⟩
      · rw [if_neg h3]
        cases rooted
        · simp [Good]
        · simpa using hg
    · rw [if_neg h2]
      refine ⟨hg.1, fun s hs => ?_⟩
      rcases List.mem_append.mp hs with h | h
      · exact hg.2 s h
      · have : s = e := by simpa using h
        subst this
        exact ⟨fun h0 => h1 (Or.inl h0), he⟩

theorem elemStep_sim (rooted : Bool) (st : Nat × List Str) (e : Str)
    (hg : Good rooted st) :
    elemStep rooted (render rooted st.1 st.2, ddOf rooted st.1) e
      = (render rooted (absStep rooted st e).1 (absStep rooted st e).2,
         ddOf rooted (absStep rooted st e).1) := by
  unfold absStep
  by_cases h1 : e = [] ∨ e = ['.']
  · rw [if_pos h1]
    rcases h1 with h | h <;> subst h
    · exact elemStep_nil _ _
    · exact elemStep_dot _ _
  · rw [if_neg h1]
    by_cases h2 : e = ['.', '.']
    · rw [if_pos h2]
      subst h2
      rw [elemStep_dotdot]
      obtain ⟨d, segs⟩ := st
      by_cases h3 : segs ≠ []
      · rw [if_pos h3]
        obtain ⟨l, s, hls⟩ : ∃ l s, segs = l ++ [s] :=
          ⟨segs.dropLast, segs.getLast h3, (List.dropLast_append_getLast h3).symm⟩
        subst hls
        simp only [List.dropLast_concat]
        exact dotdotStep_pop rooted d l s hg
      · rw [if_neg h3]
        have h3' : segs = [] := by simpa using h3
        subst h3'
        cases rooted
        · simpa using dotdotStep_push d
        · have hd : d = 0 := hg.1 rfl
          subst hd
          simpa using dotdotStep_root
    · rw [if_neg h2, elemStep_other _ _ _ (fun h => h1 (Or.inl h)) (fun h => h1 (Or.inr h)) h2]
      simp only []
      rw [addSlash_render rooted st e hg]

theorem splitSlash_noSlash : ∀ (s : Str), ∀ e ∈ splitSlash s, '/' ∉ e := by
  intro s
  induction s with
  | nil => simp [splitSlash]
  | cons c t ih =>
    by_cases hc : c = '/'
    · subst hc
      rw [splitSlash_cons_slash]
      intro e he
      rcases List.mem_cons.mp he with h | h
      · subst h; simp
      · exact ih e h
    · rw [splitSlash_cons_other c t hc]
      intro e he
      rcases List.mem_cons.mp he with h | h
      · subst h
        intro hm
        rcases List.mem_cons.mp hm with h' | h'
        · exact hc h'.symm
        · cases hsp : splitSlash t with
          | nil => simp [hsp] at h'
          | cons a r =>
            rw [hsp] at h'
            simp only [List.headD_cons] at h'
            exact ih a (by rw [hsp]; simp) h'
      · exact ih e (List.mem_of_mem_tail h)

theorem fold_sim (rooted : Bool) : ∀ (es : List Str) (st : Nat × List Str),
    Good rooted st → (∀ e ∈ es, '/' ∉ e) →
    es.foldl (elemStep rooted) (render rooted st.1 st.2, ddOf rooted st.1)
      = (render rooted (es.foldl (absStep rooted) st).1 (es.foldl (absStep rooted) st).2,
         ddOf rooted (es.foldl (absStep rooted) st).1)
    ∧ Good rooted (es.foldl (absStep rooted) st) := by
  intro es
  induction es with
  | nil => intro st hg _; exact ⟨rfl, hg⟩
  | cons e r ih =>
    intro st hg hes
    have he : '/' ∉ e := hes e (by simp)
    simp only [List.foldl_cons]
    rw [elemStep_sim rooted st e hg]
    exact ih _ (absStep_good rooted st e hg he) (fun x hx => hes x (List.mem_cons_of_mem _ hx))

theorem good_init (rooted : Bool) : Good rooted (0, []) := by
  simp [Good]

theorem Clean_eq_render (p : Str) (hp : p ≠ []) :
    Clean p =
      (if p.head? = some '/' then
        render true (cleanElems true p.tail).1 (cleanElems true p.tail).2
      else
        if render false (cleanElems false p).1 (cleanElems false p).2 = [] then ['.']
        else render false (cleanElems false p).1 (cleanElems false p).2) := by
  unfold Clean
  rw [if_neg hp]
  by_cases hr : p.head? = some '/'
  · simp only [hr, if_true]
    have hlen : p.tail.length ≤ p.length := by simp
    rw [cleanLoop_eq_fold true _ _ _ _ hlen]
    have h0 : (['/'], 1) = (render true (0, ([] : List Str)).1 (0, ([] : List Str)).2, ddOf true (0, ([] : List Str)).1) := by
      simp [render, ddOf, dots, joinSlash]
    rw [h0, (fold_sim true _ _ (good_init true) (splitSlash_noSlash _)).1]
    simp only [cleanElems]
    rw [if_neg]
    simp [render]
  · simp only [hr, if_false]
    rw [cleanLoop_eq_fold false _ _ _ _ (le_refl _)]
    have h0 : (([] : Str), 0) = (render false (0, ([] : List Str)).1 (0, ([] : List Str)).2, ddOf false (0, ([] : List Str)).1) := by
      simp [render, ddOf, dots, joinSlash]
    rw [h0, (fold_sim false _ _ (good_init false) (splitSlash_noSlash _)).1]
    simp only [cleanElems, List.length_eq_zero]

theorem Canon.good {rooted : Bool} {st : Nat × List Str} (h : Canon rooted st) :
    Good rooted st :=
  ⟨h.1, fun s hs => ⟨(h.2 s hs).1, (h.2 s hs).2.1⟩⟩

theorem absStep_canon (rooted : Bool) (st : Nat × List Str) (e : Str)
    (hc : Canon rooted st) (he : '/' ∉ e) : Canon rooted (absStep rooted st e) := by
  unfold absStep
  by_cases h1 : e = [] ∨ e = ['.']
  · rw [if_pos h1]; exact hc
  · rw [if_neg h1]
    by_cases h2 : e = ['.', '.']
    · rw [if_pos h2]
      by_cases h3 : st.2 ≠ []
      · rw [if_pos h3]
        exact ⟨hc.1, fun s hs => hc.2 s (List.mem_of_mem_dropLast hs)⟩
      · rw [if_neg h3]
        cases rooted
        · simp [Canon]
        · simpa using hc
    · rw [if_neg h2]
      refine ⟨hc.1, fun s hs => ?_⟩
      rcases List.mem_append.mp hs with h | h
      · exact hc.2 s h
      · have : s = e := by simpa using h
        subst this
        exact ⟨fun h0 => h1 (Or.inl h0), he, fun h0 => h1 (Or.inr h0), h2⟩

theorem fold_canon (rooted : Bool) : ∀ (es : List Str) (st : Nat × List Str),
    Canon rooted st → (∀ e ∈ es, '/' ∉ e) → Canon rooted (es.foldl (absStep rooted) st) := by
  intro es
  induction es with
  | nil => intro st hc _; exact hc
  | cons e r ih =>
    intro st hc hes
    exact ih _ (absStep_canon rooted st e hc (hes e (by simp)))
      (fun x hx => hes x (List.mem_cons_of_mem _ hx))

theorem fold_normal (rooted : Bool) : ∀ (ks : List Str) (st : Nat × List Str),
    (∀ k ∈ ks, NormalSeg k) → ks.foldl (absStep rooted) st = (st.1, st.2 ++ ks) := by
  intro ks
  induction ks with
  | nil => intro st _; simp
  | cons k r ih =>
    intro st hks
    have hk : NormalSeg k := hks k (by simp)
    have hstep : absStep rooted st k = (st.1, st.2 ++ [k]) := by
      unfold absStep
      rw [if_neg (not_or.mpr ⟨hk.1, hk.2.2.1⟩), if_neg hk.2.2.2]
    rw [List.foldl_cons, hstep, ih _ (fun x hx => hks x (List.mem_cons_of_mem _ hx))]
    simp

theorem fold_dots (d : Nat) : ∀ (n : Nat),
    (dots d).foldl (absStep false) (n, []) = (n + d, []) := by
  induction d with
  | zero => intro n; simp [dots]
  | succ d ih =>
    intro n
    have : dots (d + 1) = ['.', '.'] :: dots d := by simp [dots, List.replicate_succ]
    rw [this, List.foldl_cons]
    have hstep : absStep false (n, []) ['.', '.'] = (n + 1, []) := by
      simp [absStep]
    rw [hstep, ih]
    congr 1
    omega

theorem splitSlash_of_noSlash (s : Str) (h : '/' ∉ s) : splitSlash s = [s] := by
  induction s with
  | nil => simp [splitSlash]
  | cons c t ih =>
    have hc : c ≠ '/' := fun hc => h (by simp [hc])
    have ht : '/' ∉ t := fun ht => h (List.mem_cons_of_mem _ ht)
    rw [splitSlash_cons_other c t hc, ih ht]
    simp

theorem splitSlash_append (a b : Str) :
    splitSlash (a ++ '/' :: b) = splitSlash a ++ splitSlash b := by
  induction a with
  | nil => simp [splitSlash]
  | cons c t ih =>
    by_cases hc : c = '/'
    · subst hc
      simp only [List.cons_append, splitSlash_cons_slash, ih]
    · rw [List.cons_append, splitSlash_cons_other _ _ hc, splitSlash_cons_other _ _ hc, ih]
      cases hsp : splitSlash t with
      | nil => exact absurd hsp (splitSlash_ne_nil t)
      | cons x r => simp

theorem splitSlash_joinSlash : ∀ (es : List Str), es ≠ [] → (∀ e ∈ es, '/' ∉ e) →
    splitSlash (joinSlash es) = es := by
  intro es
  induction es with
  | nil => intro h; exact absurd rfl h
  | cons a r ih =>
    intro _ hes
    cases r with
    | nil => simpa [joinSlash] using splitSlash_of_noSlash a (hes a (by simp))
    | cons b r2 =>
      simp only [joinSlash]
      rw [splitSlash_append, splitSlash_of_noSlash a (hes a (by simp)),
        ih (by simp) (fun e he => hes e (List.mem_cons_of_mem _ he))]
      simp

theorem render_true_ne_nil (d : Nat) (segs : List Str) : render true d segs ≠ [] := by
  simp [render]

theorem finish_true (st : Nat × List Str) : finish true st = render true st.1 st.2 := by
  unfold finish
  rw [if_neg (render_true_ne_nil _ _)]

theorem Clean_eq_finish (p : Str) (hp : p ≠ []) :
    Clean p =
      (if p.head? = some '/' then finish true (cleanElems true p.tail)
       else finish false (cleanElems false p)) := by
  rw [Clean_eq_render p hp]
  by_cases hr : p.head? = some '/'
  · rw [if_pos hr, if_pos hr, finish_true]
  · rw [if_neg hr, if_neg hr]
    rfl

theorem cleanElems_canon (rooted : Bool) (body : Str) : Canon rooted (cleanElems rooted body) :=
  fold_canon rooted _ _ (by simp [Canon]) (splitSlash_noSlash body)

/-- Every result of `Clean` is the rendering of a canonical element stack
(or the single dot for the empty stack). -/
theorem Clean_canon (p : Str) :
    ∃ st, Canon (p.head? = some '/') st ∧ Clean p = finish (p.head? = some '/') st := by
  by_cases hp : p = []
  · subst hp
    exact ⟨(0, []), by simp [Canon], by simp [Clean, finish, render, dots, joinSlash]⟩
  · by_cases hr : p.head? = some '/'
    · refine ⟨cleanElems true p.tail, ?_, ?_⟩
      · simpa [hr] using cleanElems_canon true p.tail
      · rw [Clean_eq_finish p hp, if_pos hr]; simp [hr]
    · refine ⟨cleanElems false p, ?_, ?_⟩
      · simpa [hr] using cleanElems_canon false p
      · rw [Clean_eq_finish p hp, if_neg hr]; simp [hr]

theorem joinSlash_head (e : Str) (r : List Str) (c : Char) (t : Str) (he : e = c :: t) :
    (joinSlash (e :: r)).head? = some c := by
  subst he
  cases r <;> simp [joinSlash]

theorem render_false_head (d : Nat) (segs : List Str) (hc : Canon false (d, segs)) :
    (render false d segs).head? ≠ some '/' := by
  have hr : render false d segs = joinSlash (dots d ++ segs) := by simp [render]
  rw [hr]
  cases hE : dots d ++ segs with
  | nil => simp [joinSlash]
  | cons e r =>
    have hmem : e ∈ dots d ++ segs := by rw [hE]; simp
    have hne : e ≠ [] := elems_ne_nil false (d, segs) hc.good e hmem
    obtain ⟨c, t, hct⟩ := List.exists_cons_of_ne_nil hne
    rw [joinSlash_head e r c t hct]
    intro h
    have hc' : c = '/' := by simpa using h
    subst hc'
    rcases List.mem_append.mp hmem with h1 | h1
    · have := List.eq_of_mem_replicate h1
      rw [hct] at this
      simp at this
    · exact (hc.2 e h1).2.1 (by rw [hct]; simp)

theorem cleanElems_render_append (rooted : Bool) (d : Nat) (segs : List Str) (x : Str)
    (hc : Canon rooted (d, segs)) (hne : dots d ++ segs ≠ []) :
    cleanElems rooted (joinSlash (dots d ++ segs) ++ '/' :: x)
      = (splitSlash x).foldl (absStep rooted) (d, segs) := by
  unfold cleanElems
  have hns : ∀ e ∈ dots d ++ segs, '/' ∉ e := by
    intro e he
    rcases List.mem_append.mp he with h1 | h1
    · have := List.eq_of_mem_replicate h1
      subst this; simp
    · exact (hc.2 e h1).2.1
  rw [splitSlash_append, splitSlash_joinSlash _ hne hns, List.foldl_append, List.foldl_append]
  cases rooted
  · have := fold_dots d 0
    rw [this, fold_normal false segs _ hc.2]
    simp
  · have hd : d = 0 := hc.1 rfl
    subst hd
    simp only [dots, List.replicate_zero, List.foldl_nil]
    rw [fold_normal true segs _ hc.2]
    simp

theorem Clean_render_append (rooted : Bool) (d : Nat) (segs : List Str) (x : Str)
    (hc : Canon rooted (d, segs)) (hne : render rooted d segs ≠ []) :
    Clean (render rooted d segs ++ '/' :: x)
      = finish rooted ((splitSlash x).foldl (absStep rooted) (d, segs)) := by
  rw [Clean_eq_finish _ (by simp)]
  cases rooted
  · have hE : dots d ++ segs ≠ [] := by
      intro h; apply hne; simp [render, h, joinSlash]
    have hh := render_false_head d segs hc
    have hhead : (render false d segs ++ '/' :: x).head? ≠ some '/' := by
      cases hr : render false d segs with
      | nil => exact absurd hr hne
      | cons a l => rw [hr] at hh; simpa using hh
    rw [if_neg hhead]
    have hr : render false d segs = joinSlash (dots d ++ segs) := by simp [render]
    rw [hr, cleanElems_render_append false d segs x hc hE]
  · have hhead : (render true d segs ++ '/' :: x).head? = some '/' := by simp [render]
    rw [if_pos hhead]
    have htail : (render true d segs ++ '/' :: x).tail = joinSlash (dots d ++ segs) ++ '/' :: x := by
      simp [render]
    rw [htail]
    by_cases hE : dots d ++ segs = []
    · have hd : d = 0 := hc.1 rfl
      have hsegs : segs = [] := (List.append_eq_nil.mp hE).2
      subst hd hsegs
      simp [cleanElems, dots, joinSlash, splitSlash_cons_slash, absStep]
    · rw [cleanElems_render_append true d segs x hc hE]

theorem fold_elems (rooted : Bool) (d : Nat) (segs : List Str) (hc : Canon rooted (d, segs)) :
    (dots d ++ segs).foldl (absStep rooted) (0, []) = (d, segs) := by
  rw [List.foldl_append]
  cases rooted
  · rw [fold_dots d 0, fold_normal false segs _ hc.2]
    simp
  · have hd : d = 0 := hc.1 rfl
    subst hd
    simp only [dots, List.replicate_zero, List.foldl_nil]
    rw [fold_normal true segs _ hc.2]
    simp

theorem elems_noSlash (rooted : Bool) (d : Nat) (segs : List Str) (hc : Canon rooted (d, segs)) :
    ∀ e ∈ dots d ++ segs, '/' ∉ e := by
  intro e he
  rcases List.mem_append.mp he with h1 | h1
  · have := List.eq_of_mem_replicate h1
    subst this; simp
  · exact (hc.2 e h1).2.1

/-- A rendered canonical stack is a fixed point of `Clean`. -/
theorem Clean_render (rooted : Bool) (d : Nat) (segs : List Str)
    (hc : Canon rooted (d, segs)) (hne : render rooted d segs ≠ []) :
    Clean (render rooted d segs) = render rooted d segs := by
  rw [Clean_eq_finish _ hne]
  cases rooted
  · have hE : dots d ++ segs ≠ [] := by
      intro h; apply hne; simp [render, h, joinSlash]
    rw [if_neg (render_false_head d segs hc)]
    have hr : render false d segs = joinSlash (dots d ++ segs) := by simp [render]
    have hce : cleanElems false (render false d segs) = (d, segs) := by
      rw [hr]
      unfold cleanElems
      rw [splitSlash_joinSlash _ hE (elems_noSlash false d segs hc), fold_elems false d segs hc]
    rw [hce]
    unfold finish
    rw [if_neg hne]
  · have hhead : (render true d segs).head? = some '/' := by simp [render]
    rw [if_pos hhead, finish_true]
    have htail : (render true d segs).tail = joinSlash (dots d ++ segs) := by simp [render]
    have hce : cleanElems true (render true d segs).tail = (d, segs) := by
      rw [htail]
      unfold cleanElems
      by_cases hE : dots d ++ segs = []
      · have hd : d = 0 := hc.1 rfl
        have hsegs : segs = [] := (List.append_eq_nil.mp hE).2
        subst hd hsegs
        simp [dots, joinSlash, splitSlash, absStep]
      · rw [splitSlash_joinSlash _ hE (elems_noSlash true d segs hc), fold_elems true d segs hc]
    rw [hce]

theorem render_snoc (rooted : Bool) (d : Nat) (segs : List Str) (n : Str)
    (hE : dots d ++ segs ≠ []) :
    render rooted d (segs ++ [n]) = render rooted d segs ++ '/' :: n := by
  unfold render
  rw [← List.append_assoc (dots d), joinSlash_snoc _ _ hE]
  simp

theorem render_append (rooted : Bool) (d : Nat) (segs ks : List Str)
    (hE : dots d ++ segs ≠ []) (hks : ks ≠ []) :
    render rooted d (segs ++ ks) = render rooted d segs ++ '/' :: joinSlash ks := by
  induction ks using List.reverseRecOn with
  | nil => exact absurd rfl hks
  | append_singleton l k ih =>
    by_cases hl : l = []
    · subst hl
      simpa [joinSlash] using render_snoc rooted d segs k hE
    · rw [← List.append_assoc, render_snoc rooted d (segs ++ l) k (by simp [hl]), ih hl,
        joinSlash_snoc l k hl]
      simp

theorem Join_two (dir x : Str) (h : dir ≠ []) : Join [dir, x] = Clean (dir ++ '/' :: x) := by
  simp [Join, h, joinSlash]

theorem Canon.snoc {rooted : Bool} {d : Nat} {segs : List Str} (hc : Canon rooted (d, segs))
    {n : Str} (hn : NormalSeg n) : Canon rooted (d, segs ++ [n]) := by
  refine ⟨hc.1, fun s hs => ?_⟩
  rcases List.mem_append.mp hs with h | h
  · exact hc.2 s h
  · have : s = n := by simpa using h
    subst this; exact hn

theorem Canon.append {rooted : Bool} {d : Nat} {segs : List Str} (hc : Canon rooted (d, segs))
    {ks : List Str} (hn : ∀ k ∈ ks, NormalSeg k) : Canon rooted (d, segs ++ ks) := by
  refine ⟨hc.1, fun s hs => ?_⟩
  rcases List.mem_append.mp hs with h | h
  · exact hc.2 s h
  · exact hn s h

theorem render_snoc_ne_nil (rooted : Bool) (d : Nat) (segs : List Str) (n : Str) (hn : n ≠ []) :
    render rooted d (segs ++ [n]) ≠ [] := by
  unfold render
  have : joinSlash (dots d ++ (segs ++ [n])) ≠ [] := by
    by_cases hE : dots d ++ segs = []
    · rw [← List.append_assoc, hE]; simpa [joinSlash] using hn
    · rw [← List.append_assoc, joinSlash_snoc _ _ hE]; simp
  simp [this]

/-- Joining a clean directory with further normal segments appends them. -/
theorem Join_render_segs (rooted : Bool) (d : Nat) (segs ks : List Str)
    (hc : Canon rooted (d, segs)) (hne : render rooted d segs ≠ [])
    (hn : ∀ k ∈ ks, NormalSeg k) (hks : ks ≠ []) :
    Join [render rooted d segs, joinSlash ks] = render rooted d (segs ++ ks) := by
  rw [Join_two _ _ hne, Clean_render_append rooted d segs _ hc hne,
    splitSlash_joinSlash ks hks (fun e he => (hn e he).2.1), fold_normal rooted ks _ hn]
  unfold finish
  obtain ⟨l, k, hlk⟩ : ∃ l k, ks = l ++ [k] :=
    ⟨ks.dropLast, ks.getLast hks, (List.dropLast_append_getLast hks).symm⟩
  have : render rooted d (segs ++ ks) ≠ [] := by
    rw [hlk, ← List.append_assoc]
    exact render_snoc_ne_nil rooted d _ k (hn k (by simp [hlk])).1
  rw [if_neg this]

/-- Joining a clean directory with the parent element drops its last segment. -/
theorem Join_render_parent (rooted : Bool) (d : Nat) (segs : List Str) (s : Str)
    (hc : Canon rooted (d, segs ++ [s])) :
    Join [render rooted d (segs ++ [s]), ['.', '.']] = finish rooted (d, segs) := by
  have hne := render_snoc_ne_nil rooted d segs s (hc.2 s (by simp)).1
  rw [Join_two _ _ hne, Clean_render_append rooted d _ _ hc hne]
  have : splitSlash ['.', '.'] = [['.', '.']] := by decide
  rw [this]
  simp [absStep]

theorem modtimeFile_normal : NormalSeg modtimeFile := by decide

theorem src_normal : NormalSeg "src".toList := by decide

theorem goPathSrc_canon (gopath : Str) :
    ∃ rooted d segs, Canon rooted (d, segs) ∧
      goPathSrc gopath = render rooted d (segs ++ ["src".toList]) := by
  by_cases hg : gopath = []
  · subst hg
    exact ⟨false, 0, [], by simp [Canon], by decide⟩
  · have hj : goPathSrc gopath = Clean (gopath ++ '/' :: "src".toList) := Join_two _ _ hg
    have hsp : splitSlash "src".toList = ["src".toList] := by decide
    have hstep : ∀ (rooted : Bool) (st : Nat × List Str),
        absStep rooted st "src".toList = (st.1, st.2 ++ ["src".toList]) := by
      intro rooted st
      unfold absStep
      rw [if_neg (by decide), if_neg (by decide)]
    rw [hj, Clean_eq_finish _ (by simp)]
    obtain ⟨c, t, hct⟩ := List.exists_cons_of_ne_nil hg
    subst hct
    by_cases hc : c = '/'
    · subst hc
      refine ⟨true, (cleanElems true t).1, (cleanElems true t).2, cleanElems_canon true t, ?_⟩
      simp only [List.cons_append, List.head?_cons, if_true, List.tail_cons, finish_true]
      unfold cleanElems
      rw [splitSlash_append, hsp, List.foldl_append]
      simp only [List.foldl_cons, List.foldl_nil, hstep]
    · refine ⟨false, (cleanElems false (c :: t)).1, (cleanElems false (c :: t)).2,
        cleanElems_canon false _, ?_⟩
      have hh : ((c :: t) ++ '/' :: "src".toList).head? ≠ some '/' := by
        simpa using hc
      rw [if_neg hh]
      unfold cleanElems
      rw [splitSlash_append, hsp, List.foldl_append]
      simp only [List.foldl_cons, List.foldl_nil, hstep]
      unfold finish
      rw [if_neg (render_snoc_ne_nil _ _ _ _ (by decide))]

theorem timeSub_lt_iff (t u : Int) : timeSub t u < newEnough ↔ t - u < 60000000000 := by
  unfold timeSub newEnough maxDuration minDuration
  have h1 : (2 : Int) ^ 63 = 9223372036854775808 := by norm_num
  rw [h1]
  split
  · constructor <;> intro h <;> omega
  · split
    · constructor <;> intro h <;> omega
    · constructor <;> intro h <;> omega

theorem statFresh_iff (now : Int) (fs : FS) (p : Str) :
    statFresh now fs p = true ↔ ∃ m, fs.mtime p = some m ∧ now - m < 60000000000 := by
  unfold statFresh
  cases h : fs.mtime p with
  | none => simp
  | some m => simp [timeSub_lt_iff]

theorem render_length_le (rooted : Bool) (d : Nat) (segs l : List Str) :
    (render rooted d segs).length ≤ (render rooted d (segs ++ l)).length := by
  unfold render
  have := joinSlash_append_length (dots d ++ segs) l
  rw [List.append_assoc] at this
  simp only [List.length_append]
  omega

theorem isNewEnough_walk (rooted : Bool) (d : Nat) (segs0 : List Str)
    (hc : Canon rooted (d, segs0)) (hE : dots d ++ segs0 ≠ []) (now : Int) (fs : FS) :
    ∀ (l : List Str), (∀ k ∈ l, NormalSeg k) → ∀ fuel, l.length < fuel →
      ∃ b probes,
        isNewEnough (render rooted d segs0) now fs fuel (render rooted d (segs0 ++ l))
          = some (b, probes)
        ∧ (b = true ↔ ∃ i, 1 ≤ i ∧ i ≤ l.length ∧
            statFresh now fs (render rooted d (segs0 ++ l.take i ++ [modtimeFile])) = true)
        ∧ ∀ p ∈ probes, ∃ i, 1 ≤ i ∧ i ≤ l.length ∧
            p = render rooted d (segs0 ++ l.take i ++ [modtimeFile]) := by
  have hpos : 0 < (render rooted d segs0).length := by
    have := joinSlash_ne_nil _ hE (elems_ne_nil rooted (d, segs0) hc.good)
    have := List.length_pos.mpr this
    unfold render
    simp only [List.length_append]
    omega
  intro l
  induction l using List.reverseRecOn with
  | nil =>
    intro _ fuel hf
    obtain ⟨f, rfl⟩ : ∃ f, fuel = f + 1 := ⟨fuel - 1, by simp at hf; omega⟩
    refine ⟨false, [], ?_, ?_, ?_⟩
    · simp [isNewEnough]
    · simp
      intro i h1 h2; omega
    · simp
  | append_singleton l' k ih =>
    intro hn fuel hf
    obtain ⟨f, rfl⟩ : ∃ f, fuel = f + 1 := ⟨fuel - 1, by simp at hf; omega⟩
    have hf' : l'.length < f := by simp at hf; omega
    have hn' : ∀ x ∈ l', NormalSeg x := fun x hx => hn x (by simp [hx])
    have hk : NormalSeg k := hn k (by simp)
    have hcl : Canon rooted (d, segs0 ++ l') := hc.append hn'
    have hclk : Canon rooted (d, (segs0 ++ l') ++ [k]) := hcl.snoc hk
    have hEl : dots d ++ (segs0 ++ l') ≠ [] := by
      rw [← List.append_assoc]
      intro h
      exact hE (List.append_eq_nil.mp h).1
    have hdir : render rooted d (segs0 ++ (l' ++ [k]))
        = render rooted d (segs0 ++ l') ++ '/' :: k := by
      rw [← List.append_assoc, render_snoc rooted d _ k hEl]
    have hlen : (render rooted d (segs0 ++ (l' ++ [k]))).length
        > (render rooted d segs0).length := by
      rw [hdir]
      have := render_length_le rooted d segs0 l'
      simp only [List.length_append, List.length_cons]
      omega
    have hne : render rooted d ((segs0 ++ l') ++ [k]) ≠ [] :=
      render_snoc_ne_nil rooted d _ k hk.1
    have hnel : render rooted d (segs0 ++ l') ≠ [] := by
      have := render_length_le rooted d segs0 l'
      intro h
      rw [h, List.length_nil] at this
      omega
    have hsent : Join [render rooted d (segs0 ++ (l' ++ [k])), modtimeFile]
        = render rooted d (segs0 ++ (l' ++ [k]) ++ [modtimeFile]) := by
      have := Join_render_segs rooted d ((segs0 ++ l') ++ [k]) [modtimeFile] hclk hne
        (by intro x hx; have : x = modtimeFile := by simpa using hx
            subst this; exact modtimeFile_normal) (by simp)
      simpa [joinSlash, List.append_assoc] using this
    have hpar : Join [render rooted d (segs0 ++ (l' ++ [k])), ['.', '.']]
        = render rooted d (segs0 ++ l') := by
      rw [← List.append_assoc, Join_render_parent rooted d _ k hclk]
      unfold finish
      rw [if_neg hnel]
    have htake : ∀ i, i ≤ l'.length → (l' ++ [k]).take i = l'.take i := by
      intro i hi
      exact List.take_append_of_le_length hi
    have hfull : (l' ++ [k]).take (l'.length + 1) = l' ++ [k] := by
      rw [List.take_of_length_le (by simp)]
    simp only [isNewEnough, if_pos hlen, hsent, hpar]
    by_cases hfr : statFresh now fs (render rooted d (segs0 ++ (l' ++ [k]) ++ [modtimeFile])) = true
    · rw [if_pos hfr]
      refine ⟨true, [_], rfl, ?_, ?_⟩
      · simp only [true_iff]
        exact ⟨l'.length + 1, by omega, by simp, by rw [hfull]; exact hfr⟩
      · intro p hp
        have : p = render rooted d (segs0 ++ (l' ++ [k]) ++ [modtimeFile]) := by simpa using hp
        exact ⟨l'.length + 1, by omega, by simp, by rw [hfull]; exact this⟩
    · rw [if_neg hfr]
      obtain ⟨b, probes, hrun, hb, hp⟩ := ih hn' f hf'
      rw [hrun]
      refine ⟨b, _, rfl, ?_, ?_⟩
      · rw [hb]
        constructor
        · rintro ⟨i, h1, h2, h3⟩
          exact ⟨i, h1, by simp; omega, by rw [htake i h2]; exact h3⟩
        · rintro ⟨i, h1, h2, h3⟩
          have h2' : i ≤ l'.length + 1 := by simpa using h2
          by_cases hi : i ≤ l'.length
          · exact ⟨i, h1, hi, by rw [htake i hi] at h3; exact h3⟩
          · have : i = l'.length + 1 := by omega
            subst this
            rw [hfull] at h3
            exact absurd h3 hfr
      · intro p hp'
        rcases List.mem_cons.mp hp' with h | h
        · exact ⟨l'.length + 1, by omega, by simp, by rw [hfull]; exact h⟩
        · obtain ⟨i, h1, h2, h3⟩ := hp p h
          exact ⟨i, h1, by simp; omega, by rw [htake i h2]; exact h3⟩

/-! ## Lemmas on keys and on `getPackage` run on its own -/

theorem render_false_zero (segs : List Str) : render false 0 segs = joinSlash segs := by
  simp [render, dots]

theorem render_true_zero (segs : List Str) : render true 0 segs = '/' :: joinSlash segs := by
  simp [render, dots]

/-- A request path that starts with a slash, has at least two bytes and is a
fixed point of `Clean` is a slash followed by normal segments. -/
theorem clean_rooted_form (p : Str) (hslash : p.head? = some '/') (hlen : 2 ≤ p.length)
    (hclean : Clean p = p) :
    ∃ segs, segs ≠ [] ∧ (∀ k ∈ segs, NormalSeg k) ∧ p = '/' :: joinSlash segs := by
  obtain ⟨st, hc, hfin⟩ := Clean_canon p
  simp only [hslash, decide_True] at hc hfin
  rw [hclean, finish_true] at hfin
  obtain ⟨d, segs⟩ := st
  have hd : d = 0 := hc.1 rfl
  subst hd
  rw [render_true_zero] at hfin
  refine ⟨segs, ?_, hc.2, hfin⟩
  intro h
  subst h
  rw [hfin] at hlen
  simp [joinSlash] at hlen

/-- A key made of normal segments is not empty, is a fixed point of `Clean`
and splits into exactly these segments. -/
theorem key_of_segs (segs : List Str) (hne : segs ≠ []) (hn : ∀ k ∈ segs, NormalSeg k) :
    joinSlash segs ≠ [] ∧ Clean (joinSlash segs) = joinSlash segs
      ∧ splitSlash (joinSlash segs) = segs := by
  have h1 : joinSlash segs ≠ [] := joinSlash_ne_nil segs hne (fun s hs => (hn s hs).1)
  refine ⟨h1, ?_, splitSlash_joinSlash segs hne (fun s hs => (hn s hs).2.1)⟩
  have hc : Canon false (0, segs) := ⟨by simp, hn⟩
  have := Clean_render false 0 segs hc (by rw [render_false_zero]; exact h1)
  rwa [render_false_zero] at this

/-! ## `getPackage` run on its own -/

theorem getPackage_fresh (env : Env) (s : Shared) (pkg : Str) (probes : List Str)
    (h : isNewEnough (goPathSrc env.gopath) s.now s.fs ((rootOf env pkg).length + 1)
      (rootOf env pkg) = some (true, probes)) :
    getPackage env s pkg
      = some (.ok (rootOf env pkg), { s with calls := s.calls ++ [pkg] }) := by
  simp [getPackage, gpRun, gpStep, h]

theorem getPackage_diverge (env : Env) (s : Shared) (pkg : Str)
    (h : isNewEnough (goPathSrc env.gopath) s.now s.fs ((rootOf env pkg).length + 1)
      (rootOf env pkg) = none) :
    getPackage env s pkg = none := by
  simp [getPackage, gpRun, gpStep, h]

theorem getPackage_stale (env : Env) (s : Shared) (pkg : Str) (probes : List Str)
    (h : isNewEnough (goPathSrc env.gopath) s.now s.fs ((rootOf env pkg).length + 1)
      (rootOf env pkg) = some (false, probes)) :
    getPackage env s pkg =
      if (registered s pkg).2.2.getD (registered s pkg).1 true = false then
        some (match (env.goGet pkg s.now s.fs).1.err with
              | some e => .error (errorText env pkg e (env.goGet pkg s.now s.fs).1.out)
              | none => .ok (rootOf env pkg),
          { now := s.now + (env.goGet pkg s.now s.fs).2.2
            fs := touchFile (s.now + (env.goGet pkg s.now s.fs).2.2) (env.goGet pkg s.now s.fs).2.1
                    (Join [rootOf env pkg, modtimeFile])
            pending := (registered s pkg).2.1
            chans := (((registered s pkg).2.2).set (registered s pkg).1 true).set
                        (registered s pkg).1 false
            fetched := s.fetched ++ [pkg]
            calls := s.calls ++ [pkg] })
      else none := by
  unfold registered
  cases hl : lookupChan s.pending pkg with
  | none =>
    simp [getPackage, gpRun, gpStep, h, hl]
  | some c =>
    by_cases hc : s.chans.getD c true = false
    · have hc1 := hc
      rw [List.getD_eq_getElem?_getD] at hc1
      simp [getPackage, gpRun, gpStep, h, hl, hc, hc1]
    · have hc1 := hc
      rw [List.getD_eq_getElem?_getD] at hc1
      simp [getPackage, gpRun, gpStep, h, hl, hc, hc1]

theorem getPackage_calls (env : Env) (s : Shared) (pkg : Str) (r : Result) (s1 : Shared)
    (h : getPackage env s pkg = some (r, s1)) : s1.calls = s.calls ++ [pkg] := by
  cases hi : isNewEnough (goPathSrc env.gopath) s.now s.fs ((rootOf env pkg).length + 1)
      (rootOf env pkg) with
  | none => rw [getPackage_diverge env s pkg hi] at h; simp at h
  | some v =>
    obtain ⟨b, probes⟩ := v
    cases b
    · rw [getPackage_stale env s pkg probes hi] at h
      split at h
      · simp only [Option.some.injEq, Prod.mk.injEq] at h
        rw [← h.2]
      · simp at h
    · rw [getPackage_fresh env s pkg probes hi] at h
      simp only [Option.some.injEq, Prod.mk.injEq] at h
      rw [← h.2]

/-! ## The freshness test and the validation of request paths -/

theorem root_path (gopath : Str) (ks : List Str) (hks : ks ≠ []) (hn : ∀ k ∈ ks, NormalSeg k) :
    ∃ rooted d segs0, Canon rooted (d, segs0) ∧ dots d ++ segs0 ≠ []
      ∧ goPathSrc gopath = render rooted d segs0
      ∧ (∀ l : List Str, l ≠ [] →
          render rooted d (segs0 ++ l) = goPathSrc gopath ++ '/' :: joinSlash l)
      ∧ Join [goPathSrc gopath, joinSlash ks] = goPathSrc gopath ++ '/' :: joinSlash ks := by
  obtain ⟨rooted, d, segs, hc, hsrc⟩ := goPathSrc_canon gopath
  have hc0 : Canon rooted (d, segs ++ ["src".toList]) := hc.snoc src_normal
  have hE : dots d ++ (segs ++ ["src".toList]) ≠ [] := by simp
  have happ : ∀ l : List Str, l ≠ [] →
      render rooted d ((segs ++ ["src".toList]) ++ l) = goPathSrc gopath ++ '/' :: joinSlash l := by
    intro l hl
    rw [render_append rooted d _ l hE hl, hsrc]
  refine ⟨rooted, d, segs ++ ["src".toList], hc0, hE, hsrc, happ, ?_⟩
  have hne : render rooted d (segs ++ ["src".toList]) ≠ [] :=
    render_snoc_ne_nil rooted d segs _ (by decide)
  rw [hsrc, Join_render_segs rooted d _ ks hc0 hne hn hks, happ ks hks, hsrc]

/-- C8: for a key `k1/.../kn` of normal segments and `dir = goPathSrc/k1/.../kn`
(which is the `root` that `getPackage` computes for the key), `isNewEnough`
returns as soon as it has more than `n` units of fuel; it returns true exactly
when one of the directories `goPathSrc/k1/.../ki`, `1 ≤ i ≤ n`, holds a sentinel
whose age `now - mtime` is strictly below one minute (60000000000 ns); every
path it hands to `os.Stat` is the sentinel of one of these directories, so
`goPathSrc` and the directories above it are never consulted; a sentinel aged
exactly one minute does not count as fresh. -/
theorem isNewEnough_fresh_iff (gopath : Str) (now : Int) (fs : FS) (ks : List Str)
    (hks : ks ≠ []) (hn : ∀ k ∈ ks, NormalSeg k) (fuel : Nat) (hf : ks.length < fuel) :
    Join [goPathSrc gopath, joinSlash ks] = goPathSrc gopath ++ '/' :: joinSlash ks
    ∧ (∃ b probes,
        isNewEnough (goPathSrc gopath) now fs fuel (goPathSrc gopath ++ '/' :: joinSlash ks)
          = some (b, probes)
        ∧ (b = true ↔ ∃ i, 1 ≤ i ∧ i ≤ ks.length ∧ ∃ m,
            fs.mtime (goPathSrc gopath ++ '/' :: joinSlash (ks.take i) ++ '/' :: modtimeFile)
              = some m ∧ now - m < 60000000000)
        ∧ ∀ p ∈ probes, ∃ i, 1 ≤ i ∧ i ≤ ks.length ∧
            p = goPathSrc gopath ++ '/' :: joinSlash (ks.take i) ++ '/' :: modtimeFile)
    ∧ (∀ p m, fs.mtime p = some m → now - m = 60000000000 → statFresh now fs p = false) := by
  obtain ⟨rooted, d, segs0, hc, hE, hsrc, happ, hjoin⟩ := root_path gopath ks hks hn
  have hsent : ∀ i, 1 ≤ i → render rooted d (segs0 ++ ks.take i ++ [modtimeFile])
      = goPathSrc gopath ++ '/' :: joinSlash (ks.take i) ++ '/' :: modtimeFile := by
    intro i hi
    have hne : ks.take i ≠ [] := by
      intro h
      rcases List.take_eq_nil_iff.mp h with h0 | h0
      · omega
      · exact hks h0
    have hE2 : dots d ++ (segs0 ++ ks.take i) ≠ [] := by
      rw [← List.append_assoc]
      intro h
      exact hE (List.append_eq_nil.mp h).1
    rw [render_snoc rooted d _ modtimeFile hE2, happ _ hne]
  refine ⟨hjoin, ?_, ?_⟩
  · obtain ⟨b, probes, hrun, hb, hp⟩ := isNewEnough_walk rooted d segs0 hc hE now fs ks hn fuel hf
    rw [← hsrc, happ ks hks] at hrun
    refine ⟨b, probes, hrun, ?_, ?_⟩
    · rw [hb]
      constructor
      · rintro ⟨i, h1, h2, h3⟩
        rw [hsent i h1] at h3
        exact ⟨i, h1, h2, (statFresh_iff now fs _).mp h3⟩
      · rintro ⟨i, h1, h2, h3⟩
        refine ⟨i, h1, h2, ?_⟩
        rw [hsent i h1]
        exact (statFresh_iff now fs _).mpr h3
    · intro p hp'
      obtain ⟨i, h1, h2, h3⟩ := hp p hp'
      exact ⟨i, h1, h2, by rw [h3, hsent i h1]⟩
  · intro p m hm hage
    cases hfr : statFresh now fs p with
    | false => rfl
    | true =>
      obtain ⟨m1, hm1, hlt⟩ := (statFresh_iff now fs p).mp hfr
      rw [hm] at hm1
      have : m = m1 := by simpa using hm1
      subst this
      omega

/-- C9: for a request path `p` that starts with a slash and has at least two
bytes, (1) when the key `p[1:]` differs from its `Clean`, `proxy` answers with
status 500 and the text `invalid path` and leaves the state as it was, so
`getPackage` is not called; (2) whenever `proxy` does call `getPackage` (it
does not return, or it returns with the call recorded), the key is `p[1:]`, is
not empty, equals its `Clean`, and none of its segments is empty, `.` or `..`. -/
theorem proxy_rejects_unclean_key (env : Env) (s : Shared) (p : Str)
    (hslash : p.head? = some '/') (hlen : 2 ≤ p.length) :
    (Clean (p.drop 1) ≠ p.drop 1 →
      proxy env s p = some (⟨500, some "text/plain; charset=utf-8".toList,
        .text "invalid path\n".toList⟩, s))
    ∧ ((proxy env s p = none ∨ ∃ r s1, proxy env s p = some (r, s1) ∧ s1.calls ≠ s.calls) →
        (∀ r s1, proxy env s p = some (r, s1) → s1.calls = s.calls ++ [p.drop 1])
        ∧ p.drop 1 ≠ [] ∧ Clean (p.drop 1) = p.drop 1
        ∧ ∀ seg ∈ splitSlash (p.drop 1), seg ≠ [] ∧ seg ≠ ['.'] ∧ seg ≠ ['.', '.']) := by
  have hkey : Clean p = p → p.drop 1 ≠ [] ∧ Clean (p.drop 1) = p.drop 1
      ∧ ∀ seg ∈ splitSlash (p.drop 1), seg ≠ [] ∧ seg ≠ ['.'] ∧ seg ≠ ['.', '.'] := by
    intro hclean
    obtain ⟨segs, hne, hn, hp⟩ := clean_rooted_form p hslash hlen hclean
    have hd : p.drop 1 = joinSlash segs := by rw [hp]; rfl
    obtain ⟨h1, h2, h3⟩ := key_of_segs segs hne hn
    rw [hd]
    refine ⟨h1, h2, ?_⟩
    rw [h3]
    intro seg hseg
    exact ⟨(hn seg hseg).1, (hn seg hseg).2.2.1, (hn seg hseg).2.2.2⟩
  have hl2 : ¬ p.length < 2 := by omega
  constructor
  · intro hbad
    have hnc : Clean p ≠ p := fun h => hbad (hkey h).2.1
    have hfav : ¬ (p = "/favicon.ico".toList ∨ p = "/robots.txt".toList) := by
      rintro (h | h) <;> subst h <;> exact hbad (by decide)
    unfold proxy
    rw [if_neg hfav, if_neg hl2, if_pos hnc]
  · intro hreach
    by_cases hfav : p = "/favicon.ico".toList ∨ p = "/robots.txt".toList
    · exfalso
      unfold proxy at hreach
      rw [if_pos hfav] at hreach
      rcases hreach with h | ⟨r, s1, h, hc⟩
      · simp at h
      · simp only [Option.some.injEq, Prod.mk.injEq] at h
        exact hc (by rw [← h.2])
    · by_cases hnc : Clean p ≠ p
      · exfalso
        unfold proxy at hreach
        rw [if_neg hfav, if_neg hl2, if_pos hnc] at hreach
        rcases hreach with h | ⟨r, s1, h, hc⟩
        · simp at h
        · simp only [Option.some.injEq, Prod.mk.injEq] at h
          exact hc (by rw [← h.2])
      · have hclean : Clean p = p := by simpa using hnc
        refine ⟨?_, hkey hclean⟩
        intro r s1 h
        unfold proxy at h
        rw [if_neg hfav, if_neg hl2, if_neg hnc] at h
        cases hg : getPackage env s (p.drop 1) with
        | none => rw [hg] at h; simp at h
        | some v =>
          obtain ⟨res, s2⟩ := v
          have hcalls := getPackage_calls env s _ res s2 hg
          rw [hg] at h
          cases res with
          | ok path =>
            simp only [Option.some.injEq, Prod.mk.injEq] at h
            rw [← h.2]; exact hcalls
          | error text =>
            simp only [Option.some.injEq, Prod.mk.injEq] at h
            rw [← h.2]; exact hcalls

theorem isNewEnough_fresh_iff_witness :
    ∃ b probes,
      isNewEnough (goPathSrc "/go".toList) 59999999999 exSentinelFS 3
          (goPathSrc "/go".toList ++ '/' :: joinSlash ["a".toList, "b".toList])
        = some (b, probes)
      ∧ (b = true ↔ ∃ i, 1 ≤ i ∧ i ≤ ["a".toList, "b".toList].length ∧ ∃ m,
          exSentinelFS.mtime (goPathSrc "/go".toList ++
              '/' :: joinSlash (["a".toList, "b".toList].take i) ++ '/' :: modtimeFile)
            = some m ∧ 59999999999 - m < 60000000000)
      ∧ ∀ p ∈ probes, ∃ i, 1 ≤ i ∧ i ≤ ["a".toList, "b".toList].length ∧
          p = goPathSrc "/go".toList ++
              '/' :: joinSlash (["a".toList, "b".toList].take i) ++ '/' :: modtimeFile :=
  (isNewEnough_fresh_iff "/go".toList 59999999999 exSentinelFS ["a".toList, "b".toList]
    (by decide) (by decide) 3 (by decide)).2.1

theorem proxy_rejects_unclean_key_witness :
    proxy exEnv exShared "/a/../b".toList
      = some (⟨500, some "text/plain; charset=utf-8".toList, .text "invalid path\n".toList⟩,
          exShared) :=
  (proxy_rejects_unclean_key exEnv exShared "/a/../b".toList (by decide) (by decide)).1
    (by decide)

/-! ## Failed retrievals and the registry -/

/-- Counterexample to C2: the first call for `pkg` runs the retriever, which
fails, and returns the retrieval error.  When the sentinel could be written, a
second call one second later does not return that error: it returns the path
`/go/src/pkg` without an error.  When the sentinel could not be written (the
directory is missing), a second call one second later runs the retriever a
second time. -/
theorem second_call_returns_path_not_error :
    (getPackage exEnv exShared "pkg".toList).map (fun r => (r.1, r.2.fetched))
      = some (.error exError, ["pkg".toList])
    ∧ ((getPackage exEnv exShared "pkg".toList).bind
        (fun r => getPackage exEnv { r.2 with now := r.2.now + 1000000000 } "pkg".toList)).map
          (fun r => (r.1, r.2.fetched))
      = some (.ok "/go/src/pkg".toList, ["pkg".toList])
    ∧ ((getPackage exEnv exNoDirShared "pkg".toList).bind
        (fun r => getPackage exEnv { r.2 with now := r.2.now + 1000000000 } "pkg".toList)).map
          (fun r => (r.1, r.2.fetched))
      = some (.error exError, ["pkg".toList, "pkg".toList]) := by
  decide

/-- Counterexample to C3: after a call for `pkg` that ran the retriever has
returned, `pending` still maps `pkg` to its channel. -/
theorem pending_keeps_entry_example :
    (getPackage exEnv exShared "pkg".toList).map (fun r => (r.2.fetched, r.2.pending))
      = some (["pkg".toList], [("pkg".toList, 0)]) := by
  decide

/-- C10 at the failing input: with the retriever output `50%` the error of
`getPackage` ends in `50%`, while the body written by `proxy` ends in
`50%!(NOVERB)`: the error text was used as a format string. -/
theorem proxy_error_body_reformatted :
    (getPackage exEnv exShared "pkg".toList).map (fun r => r.1)
      = some (.error
          "Error running go get for package \"pkg\": exit status 1\n\nOutput:\n50%".toList)
    ∧ (proxy exEnv exShared "/pkg".toList).map (fun r => r.1)
      = some ⟨500, some "text/plain; charset=utf-8".toList,
          .text "Error running go get for package \"pkg\": exit status 1\n\nOutput:\n50%!(NOVERB)".toList⟩ := by
  decide

theorem joinSlash_ne_nil_of_normal (ks : List Str) (hks : ks ≠ []) (hn : ∀ k ∈ ks, NormalSeg k) :
    joinSlash ks ≠ [] :=
  joinSlash_ne_nil ks hks (fun s hs => (hn s hs).1)

/-- C2 as amended: let the key consist of normal segments and let a call of
`getPackage` return a retrieval error, and suppose the sentinel of the key's
directory could be created after the retriever ran.  Then that call started the
retriever exactly once, and a second call whose clock reads less than one
minute after the first call returned starts no retriever and returns the
directory path without an error: the only change of state is the record of the
call. -/
theorem second_call_within_window (env : Env) (s : Shared) (ks : List Str)
    (hks : ks ≠ []) (hn : ∀ k ∈ ks, NormalSeg k) (e : Str) (s1 : Shared)
    (hfirst : getPackage env s (joinSlash ks) = some (.error e, s1))
    (hcreate : (env.goGet (joinSlash ks) s.now s.fs).2.1.creatable
      (Join [rootOf env (joinSlash ks), modtimeFile]) = true)
    (dt : Int) (hdt : dt < 60000000000) :
    s1.fetched = s.fetched ++ [joinSlash ks]
    ∧ getPackage env { s1 with now := s1.now + dt } (joinSlash ks)
        = some (.ok (rootOf env (joinSlash ks)),
            { s1 with now := s1.now + dt, calls := s1.calls ++ [joinSlash ks] }) := by
  obtain ⟨_, _, _, _, _, _, _, hjoin⟩ := root_path env.gopath ks hks hn
  have hroot : rootOf env (joinSlash ks) = goPathSrc env.gopath ++ '/' :: joinSlash ks := hjoin
  have hlen : (rootOf env (joinSlash ks)).length > (goPathSrc env.gopath).length := by
    rw [hroot]; simp
  cases hi : isNewEnough (goPathSrc env.gopath) s.now s.fs
      ((rootOf env (joinSlash ks)).length + 1) (rootOf env (joinSlash ks)) with
  | none => rw [getPackage_diverge env s _ hi] at hfirst; simp at hfirst
  | some v =>
    obtain ⟨b, probes⟩ := v
    cases b
    · rw [getPackage_stale env s _ probes hi] at hfirst
      split at hfirst
      · simp only [Option.some.injEq, Prod.mk.injEq] at hfirst
        obtain ⟨_, hs1⟩ := hfirst
        subst hs1
        refine ⟨rfl, ?_⟩
        apply getPackage_fresh env _ _ [Join [rootOf env (joinSlash ks), modtimeFile]]
        simp only [isNewEnough, if_pos hlen]
        have hfr : statFresh (s.now + ↑(env.goGet (joinSlash ks) s.now s.fs).2.2 + dt)
            (touchFile (s.now + ↑(env.goGet (joinSlash ks) s.now s.fs).2.2)
              (env.goGet (joinSlash ks) s.now s.fs).2.1
              (Join [rootOf env (joinSlash ks), modtimeFile]))
            (Join [rootOf env (joinSlash ks), modtimeFile]) = true := by
          rw [statFresh_iff]
          refine ⟨s.now + ↑(env.goGet (joinSlash ks) s.now s.fs).2.2, ?_, by omega⟩
          simp [touchFile, hcreate]
        rw [if_pos hfr]
      · simp at hfirst
    · rw [getPackage_fresh env s _ probes hi] at hfirst
      simp at hfirst

theorem second_call_within_window_witness :
    exAfter.fetched = exShared.fetched ++ [joinSlash ["pkg".toList]]
    ∧ getPackage exEnv { exAfter with now := exAfter.now + 59999999999 } (joinSlash ["pkg".toList])
        = some (.ok (rootOf exEnv (joinSlash ["pkg".toList])),
            { exAfter with now := exAfter.now + 59999999999,
                           calls := exAfter.calls ++ [joinSlash ["pkg".toList]] }) :=
  second_call_within_window exEnv exShared ["pkg".toList] (by decide) (by decide)
    exError exAfter (by rfl) (by rfl) 59999999999 (by decide)

/-! ## The archive writer -/

theorem cleanDir_form (w : Str) (hw : CleanDir w) :
    ∃ rooted d segs, Canon rooted (d, segs) ∧ w = render rooted d segs ∧ w ≠ [] := by
  obtain ⟨st, hc, hfin⟩ := Clean_canon w
  rw [hw.1] at hfin
  obtain ⟨d, segs⟩ := st
  unfold finish at hfin
  by_cases hr : render (decide (w.head? = some '/')) d segs = []
  · rw [if_pos hr] at hfin
    exact absurd hfin hw.2
  · rw [if_neg hr] at hfin
    exact ⟨_, d, segs, hc, hfin, by rw [hfin]; exact hr⟩

theorem startsWith_append (w x : Str) : startsWith (w ++ x) w = true := by
  unfold startsWith
  rw [List.isPrefixOf_iff_prefix]
  exact List.prefix_append w x

theorem startsWith_slash (s : Str) : startsWith s ['/'] = true ↔ s.head? = some '/' := by
  unfold startsWith
  cases s with
  | nil => simp [List.isPrefixOf]
  | cons c t =>
    simp only [List.isPrefixOf, Bool.and_true, List.head?_cons, Option.some.injEq]
    constructor
    · intro h; exact (beq_iff_eq.mp h).symm
    · intro h; exact beq_iff_eq.mpr h.symm

theorem joinSlash_head_ne_slash (ns : List Str) (hn : ∀ n ∈ ns, NormalSeg n) :
    (joinSlash ns).head? ≠ some '/' := by
  have := render_false_head 0 ns ⟨by simp, hn⟩
  rwa [render_false_zero] at this

/-- The relative name of a path below a clean directory. -/
theorem rel_of_render (rooted : Bool) (d : Nat) (segs ns : List Str)
    (hne : render rooted d segs ≠ []) (hns : ns ≠ []) (hn : ∀ n ∈ ns, NormalSeg n) :
    startsWith (render rooted d (segs ++ ns)) (render rooted d segs) = true
    ∧ relName (render rooted d segs) (render rooted d (segs ++ ns)) = joinSlash ns := by
  by_cases hE : dots d ++ segs = []
  · have hd : d = 0 := dots_eq_nil d (List.append_eq_nil.mp hE).1
    have hsegs : segs = [] := (List.append_eq_nil.mp hE).2
    subst hd hsegs
    cases rooted
    · exact absurd (by simp [render, dots, joinSlash]) hne
    · have h1 : render true 0 [] = ['/'] := by simp [render, dots, joinSlash]
      have h2 : render true 0 ([] ++ ns) = ['/'] ++ joinSlash ns := by
        simp [render, dots]
      rw [h1, h2]
      refine ⟨startsWith_append _ _, ?_⟩
      unfold relName
      simp only [List.length_singleton, List.singleton_append, List.drop_succ_cons, List.drop_zero]
      have hh := joinSlash_head_ne_slash ns hn
      have : startsWith (joinSlash ns) ['/'] = false := by
        cases hs : startsWith (joinSlash ns) ['/'] with
        | false => rfl
        | true => exact absurd ((startsWith_slash _).mp hs) hh
      rw [this]
      simp
  · rw [render_append rooted d segs ns hE hns]
    refine ⟨startsWith_append _ _, ?_⟩
    unfold relName
    simp only [List.drop_left]
    have : startsWith ('/' :: joinSlash ns) ['/'] = true := (startsWith_slash _).mpr rfl
    rw [this]
    simp

theorem rel_self (w : Str) : startsWith w w = true ∧ relName w w = [] := by
  constructor
  · have := startsWith_append w []
    simpa using this
  · unfold relName
    simp [startsWith, List.isPrefixOf]

theorem tarVisit_some (w path base : Str) (fi : FileInfo) (tw : List Header)
    (hp : startsWith path w = true) :
    tarVisit w path base (some fi) tw = visitNamed (relName w path) path base fi tw := by
  unfold tarVisit visitNamed
  simp only [hp, not_true_eq_false, if_false]

theorem normalize_name (fi : FileInfo) (name : Str) (h0 : Header) :
    (normalize fi name h0).name = name := by
  unfold normalize
  split <;> rfl

theorem normalize_size (fi : FileInfo) (name : Str) (h0 : Header) :
    (normalize fi name h0).size = h0.size ∧ (normalize fi name h0).typeflag = h0.typeflag := by
  unfold normalize
  split <;> exact ⟨rfl, rfl⟩

/-- The walk function leaves the archive as it is or appends one header, and it
appends one only for a file that is not the sentinel and passes the size
filter. -/
theorem visitNamed_entries (name path base : Str) (fi : FileInfo) (tw : List Header) :
    (visitNamed name path base fi tw).1 = tw ∨
    ∃ h, (visitNamed name path base fi tw).1 = tw ++ [h] ∧ Written fi name h
      ∧ name ≠ modtimeFile ∧ keepFile name fi ∧ h.name = name := by
  unfold visitNamed
  by_cases h1 : name = modtimeFile
  · rw [if_pos h1]; exact Or.inl rfl
  · rw [if_neg h1]
    by_cases h2 : fi.IsDir = true
    · rw [if_pos h2]
      split <;> exact Or.inl rfl
    · rw [if_neg h2]
      by_cases h3 : ¬ endsWith name ".go".toList ∧ fi.size > 10 <<< 10
      · rw [if_pos h3]; exact Or.inl rfl
      · rw [if_neg h3]
        by_cases h4 : fi.size > 1 <<< 20
        · rw [if_pos h4]; exact Or.inl rfl
        · rw [if_neg h4]
          cases hh : tarFileInfoHeader base fi path with
          | error e => exact Or.inl rfl
          | ok hdr =>
            have hw : Written fi name (normalize fi name hdr) :=
              ⟨h2, path, base, hdr, hh, rfl⟩
            have hk : keepFile name fi := ⟨h3, h4⟩
            simp only []
            cases fi.outcome with
            | headerFails => exact Or.inl rfl
            | ok => exact Or.inr ⟨_, rfl, hw, h1, hk, normalize_name _ _ _⟩
            | openFails => exact Or.inr ⟨_, rfl, hw, h1, hk, normalize_name _ _ _⟩
            | copyFails => exact Or.inr ⟨_, rfl, hw, h1, hk, normalize_name _ _ _⟩

theorem visitNamed_mono (name path base : Str) (fi : FileInfo) (tw : List Header) :
    ∀ h ∈ tw, h ∈ (visitNamed name path base fi tw).1 := by
  intro h hh
  rcases visitNamed_entries name path base fi tw with h1 | ⟨x, h1, _⟩
  · rw [h1]; exact hh
  · rw [h1]; exact List.mem_append_left _ hh

/-- A regular file that is not the sentinel and passes the size filter is
written whenever the walk function returns without an error. -/
theorem visitNamed_regular (name path base : Str) (fi : FileInfo) (tw : List Header)
    (hk : fi.kind = .regular) (hn : name ≠ modtimeFile) (hkeep : keepFile name fi)
    (hnil : (visitNamed name path base fi tw).2 = .nil) :
    ∃ h ∈ (visitNamed name path base fi tw).1,
      h.name = name ∧ h.size = fi.size ∧ h.typeflag = '0' := by
  have hd : ¬ fi.IsDir = true := by simp [FileInfo.IsDir, hk]
  have hh : tarFileInfoHeader base fi path = .ok
      { name := base, modTime := fi.modTime, mode := fi.Perm ||| c_ISREG, uid := 0, gid := 0,
        size := fi.size, typeflag := '0', linkname := [], uname := [], gname := [] } := by
    simp [tarFileInfoHeader, hk]
  unfold visitNamed at hnil ⊢
  rw [if_neg hn, if_neg hd, if_neg hkeep.1, if_neg hkeep.2, hh] at hnil ⊢
  simp only [] at hnil ⊢
  cases ho : fi.outcome with
  | headerFails => rw [ho] at hnil; simp at hnil
  | openFails => rw [ho] at hnil; simp at hnil
  | copyFails => rw [ho] at hnil; simp at hnil
  | ok =>
    refine ⟨normalize fi name
      { name := base, modTime := fi.modTime, mode := fi.Perm ||| c_ISREG, uid := 0, gid := 0,
        size := fi.size, typeflag := '0', linkname := [], uname := [], gname := [] },
      by simp, normalize_name _ _ _, ?_, ?_⟩
    · rw [(normalize_size _ _ _).1]
    · rw [(normalize_size _ _ _).2]

theorem visitNamed_dir (name path base : Str) (fi : FileInfo) (tw : List Header)
    (hd : fi.IsDir = true) :
    visitNamed name path base fi tw
      = (tw, if name = modtimeFile ∨ name = [] then .nil else .skipDir) := by
  unfold visitNamed
  by_cases h1 : name = modtimeFile
  · rw [if_pos h1, if_pos (Or.inl h1)]
  · rw [if_neg h1, if_pos hd]
    by_cases h2 : name = []
    · rw [if_neg (by simpa using h2), if_pos (Or.inr h2)]
    · rw [if_pos h2, if_neg (not_or.mpr ⟨h1, h2⟩)]

theorem visitNamed_skipDir (name path base : Str) (fi : FileInfo) (tw : List Header)
    (h : (visitNamed name path base fi tw).2 = .skipDir) : fi.IsDir = true := by
  by_contra hd
  unfold visitNamed at h
  by_cases h1 : name = modtimeFile
  · rw [if_pos h1] at h; simp at h
  · rw [if_neg h1, if_neg hd] at h
    split at h
    · simp at h
    · split at h
      · simp at h
      · split at h
        · simp at h
        · split at h <;> simp at h

theorem render_ne_nil_of_append (rooted : Bool) (d : Nat) (segs l : List Str)
    (hne : render rooted d segs ≠ []) : render rooted d (segs ++ l) ≠ [] := by
  have h1 := render_length_le rooted d segs l
  have h2 : 0 < (render rooted d segs).length := List.length_pos.mpr hne
  intro h
  rw [h, List.length_nil] at h1
  omega

/-- The path of an entry `n` in the directory that lies `pre` below a clean
directory, and its name relative to that directory. -/
theorem child_path (rooted : Bool) (d : Nat) (segs pre : List Str) (n : Str)
    (hc : Canon rooted (d, segs)) (hne : render rooted d segs ≠ [])
    (hpre : ∀ k ∈ pre, NormalSeg k) (hn : NormalSeg n) :
    Join [render rooted d (segs ++ pre), n] = render rooted d (segs ++ (pre ++ [n]))
    ∧ startsWith (render rooted d (segs ++ (pre ++ [n]))) (render rooted d segs) = true
    ∧ relName (render rooted d segs) (render rooted d (segs ++ (pre ++ [n])))
        = joinSlash (pre ++ [n]) := by
  have hn1 : ∀ k ∈ [n], NormalSeg k := by
    intro k hk
    have : k = n := by simpa using hk
    subst this; exact hn
  have hall : ∀ k ∈ pre ++ [n], NormalSeg k := by
    intro k hk
    rcases List.mem_append.mp hk with h | h
    · exact hpre k h
    · exact hn1 k h
  have hj := Join_render_segs rooted d (segs ++ pre) [n] (hc.append hpre)
    (render_ne_nil_of_append rooted d segs pre hne) hn1 (by simp)
  have hrel := rel_of_render rooted d segs (pre ++ [n]) hne (by simp) hall
  refine ⟨?_, hrel.1, hrel.2⟩
  rw [show joinSlash [n] = n from rfl] at hj
  rw [hj, List.append_assoc]

theorem joinSlash_snoc_ne_modtimeFile (pre : List Str) (n : Str) (hpre : pre ≠ []) :
    joinSlash (pre ++ [n]) ≠ modtimeFile := by
  rw [joinSlash_snoc pre n hpre]
  intro h
  have : '/' ∈ modtimeFile := by rw [← h]; simp
  exact absurd this (by decide)

theorem joinSlash_snoc_ne_nil (pre : List Str) (n : Str) (hn : n ≠ []) :
    joinSlash (pre ++ [n]) ≠ [] := by
  by_cases hpre : pre = []
  · subst hpre; simpa [joinSlash] using hn
  · rw [joinSlash_snoc pre n hpre]; simp

theorem walk_file (w path base : Str) (fi : FileInfo) (e : Bool) (cs : List Node)
    (tw : List Header) (hd : ¬ fi.IsDir = true) :
    walk w path (.mk base (some fi) e cs) tw = tarVisit w path base (some fi) tw := by
  rw [walk, if_pos hd]

theorem walk_dir (w path base : Str) (fi : FileInfo) (e : Bool) (cs : List Node)
    (tw : List Header) (hd : fi.IsDir = true) :
    walk w path (.mk base (some fi) e cs) tw
      = if e = true ∨ (tarVisit w path base (some fi) tw).2 ≠ .nil
        then tarVisit w path base (some fi) tw
        else walkList w path cs (tarVisit w path base (some fi) tw).1 := by
  rw [walk, if_neg (by simpa using hd)]

/-- Below the first level every directory is skipped, so a listing adds only
headers of its own files, named by their path relative to the working
directory. -/
theorem walkList_below (rooted : Bool) (d : Nat) (segs pre : List Str)
    (hc : Canon rooted (d, segs)) (hne : render rooted d segs ≠ [])
    (hpre : pre ≠ []) (hpn : ∀ k ∈ pre, NormalSeg k) :
    ∀ (gs : List Node) (tw : List Header), (∀ g ∈ gs, NormalSeg g.name) →
      (∀ h ∈ tw,
        h ∈ (walkList (render rooted d segs) (render rooted d (segs ++ pre)) gs tw).1)
      ∧ ∀ h ∈ (walkList (render rooted d segs) (render rooted d (segs ++ pre)) gs tw).1,
          h ∈ tw ∨ ∃ g ∈ gs, ∃ fi, g.info = some fi
            ∧ h.name = joinSlash (pre ++ [g.name]) ∧ Written fi h.name h := by
  intro gs
  induction gs with
  | nil =>
    intro tw _
    simp [walkList]
  | cons g gs ih =>
    intro tw hgs
    have hgn : NormalSeg g.name := hgs g (by simp)
    have hrest : ∀ x ∈ gs, NormalSeg x.name := fun x hx => hgs x (List.mem_cons_of_mem _ hx)
    obtain ⟨gn, ginfo, gerr, ggcs⟩ := g
    have hgn' : NormalSeg gn := hgn
    obtain ⟨hj, hsw, hrel⟩ := child_path rooted d segs pre gn hc hne hpn hgn'
    cases ginfo with
    | none =>
      rw [walkList]
      simp only [tarVisit, ne_eq, not_true_eq_false, false_and, if_false]
      obtain ⟨ih1, ih2⟩ := ih tw hrest
      refine ⟨ih1, fun h hh => ?_⟩
      rcases ih2 h hh with h1 | ⟨x, hx, rest⟩
      · exact Or.inl h1
      · exact Or.inr ⟨x, List.mem_cons_of_mem _ hx, rest⟩
    | some fi =>
      rw [walkList, hj]
      by_cases hd : fi.IsDir = true
      · have hv : tarVisit (render rooted d segs) (render rooted d (segs ++ (pre ++ [gn]))) gn
            (some fi) tw = (tw, .skipDir) := by
          rw [tarVisit_some _ _ _ _ _ hsw, hrel, visitNamed_dir _ _ _ _ _ hd,
            if_neg (not_or.mpr ⟨joinSlash_snoc_ne_modtimeFile pre gn hpre,
              joinSlash_snoc_ne_nil pre gn hgn'.1⟩)]
        have hwalk : walk (render rooted d segs) (render rooted d (segs ++ (pre ++ [gn])))
            (.mk gn (some fi) gerr ggcs) tw = (tw, .skipDir) := by
          rw [walk_dir _ _ _ _ _ _ _ hd, hv]
          simp
        rw [hwalk]
        simp only [hd, ne_eq, not_true_eq_false, false_or, and_false, if_false, not_false_eq_true,
          and_true, true_and]
        obtain ⟨ih1, ih2⟩ := ih tw hrest
        refine ⟨ih1, fun h hh => ?_⟩
        rcases ih2 h hh with h1 | ⟨x, hx, rest⟩
        · exact Or.inl h1
        · exact Or.inr ⟨x, List.mem_cons_of_mem _ hx, rest⟩
      · rw [walk_file _ _ _ _ _ _ _ hd, tarVisit_some _ _ _ _ _ hsw, hrel]
        have hent := visitNamed_entries (joinSlash (pre ++ [gn]))
          (render rooted d (segs ++ (pre ++ [gn]))) gn fi tw
        have hmono := visitNamed_mono (joinSlash (pre ++ [gn]))
          (render rooted d (segs ++ (pre ++ [gn]))) gn fi tw
        generalize visitNamed (joinSlash (pre ++ [gn]))
          (render rooted d (segs ++ (pre ++ [gn]))) gn fi tw = r at hent hmono
        have hfrom : ∀ h ∈ r.1, h ∈ tw ∨ ∃ g ∈ Node.mk gn (some fi) gerr ggcs :: gs, ∃ fi,
            g.info = some fi ∧ h.name = joinSlash (pre ++ [g.name]) ∧ Written fi h.name h := by
          intro h hh
          rcases hent with h1 | ⟨x, h1, hwr, _, _, hname⟩
          · rw [h1] at hh; exact Or.inl hh
          · rw [h1] at hh
            rcases List.mem_append.mp hh with h2 | h2
            · exact Or.inl h2
            · have : h = x := by simpa using h2
              subst this
              exact Or.inr ⟨Node.mk gn (some fi) gerr ggcs, by simp, fi, rfl, hname,
                by rw [hname]; exact hwr⟩
        split
        · exact ⟨hmono, hfrom⟩
        · obtain ⟨ih1, ih2⟩ := ih r.1 hrest
          refine ⟨fun h hh => ih1 h (hmono h hh), fun h hh => ?_⟩
          rcases ih2 h hh with h1 | ⟨x, hx, rest⟩
          · exact hfrom h h1
          · exact Or.inr ⟨x, List.mem_cons_of_mem _ hx, rest⟩

/-- What the walk over one entry `n` of the working directory adds to the
archive. -/
theorem walk_child (rooted : Bool) (d : Nat) (segs : List Str) (n : Str) (fi : FileInfo)
    (err : Bool) (gcs : List Node) (tw : List Header)
    (hc : Canon rooted (d, segs)) (hne : render rooted d segs ≠ [])
    (hn : NormalSeg n) (hg : ∀ g ∈ gcs, NormalSeg g.name) :
    (∀ h ∈ tw, h ∈ (walk (render rooted d segs) (render rooted d (segs ++ [n]))
        (.mk n (some fi) err gcs) tw).1)
    ∧ (∀ h ∈ (walk (render rooted d segs) (render rooted d (segs ++ [n]))
        (.mk n (some fi) err gcs) tw).1, h ∈ tw ∨ FromChild (.mk n (some fi) err gcs) h)
    ∧ ((walk (render rooted d segs) (render rooted d (segs ++ [n]))
        (.mk n (some fi) err gcs) tw).2 = .nil →
        fi.kind = .regular → n ≠ modtimeFile → keepFile n fi →
        ∃ h ∈ (walk (render rooted d segs) (render rooted d (segs ++ [n]))
          (.mk n (some fi) err gcs) tw).1, h.name = n ∧ h.size = fi.size ∧ h.typeflag = '0') := by
  obtain ⟨_, hsw, hrel⟩ := child_path rooted d segs [] n hc hne (by simp) hn
  simp only [List.nil_append] at hsw hrel
  rw [show joinSlash [n] = n from rfl] at hrel
  by_cases hd : fi.IsDir = true
  · have hnotreg : fi.kind ≠ .regular := by
      intro h
      simp [FileInfo.IsDir, h] at hd
    rw [walk_dir _ _ _ _ _ _ _ hd, tarVisit_some _ _ _ _ _ hsw, hrel,
      visitNamed_dir _ _ _ _ _ hd]
    by_cases hs : n = modtimeFile
    · rw [if_pos (Or.inl hs)]
      simp only [ne_eq, not_true_eq_false, or_false]
      by_cases he : err = true
      · rw [if_pos he]
        exact ⟨fun h hh => hh, fun h hh => Or.inl hh, fun _ hk => absurd hk hnotreg⟩
      · rw [if_neg he]
        have hb := walkList_below rooted d segs [n] hc hne (by simp)
          (by intro k hk
              have : k = n := by simpa using hk
              subst this; exact hn) gcs tw hg
        refine ⟨hb.1, fun h hh => ?_, fun _ hk => absurd hk hnotreg⟩
        rcases hb.2 h hh with h1 | ⟨g, hg1, gfi, hg2, hg3, hg4⟩
        · exact Or.inl h1
        · refine Or.inr (Or.inr ⟨hs, ⟨fi, rfl, hd⟩, g, hg1, gfi, hg2, ?_, hg4⟩)
          rw [hg3, hs]
          rfl
    · rw [if_neg (not_or.mpr ⟨hs, hn.1⟩)]
      simp only [ne_eq, reduceCtorEq, not_false_eq_true, or_true, if_true]
      exact ⟨fun h hh => hh, fun h hh => Or.inl hh, fun hnil => by simp at hnil⟩
  · rw [walk_file _ _ _ _ _ _ _ hd, tarVisit_some _ _ _ _ _ hsw, hrel]
    refine ⟨visitNamed_mono _ _ _ _ _, fun h hh => ?_, fun hnil hk hs hkeep =>
      visitNamed_regular _ _ _ _ _ hk hs hkeep hnil⟩
    rcases visitNamed_entries n (render rooted d (segs ++ [n])) n fi tw with h1 | ⟨x, h1, hwr, hs, hk, hname⟩
    · rw [h1] at hh; exact Or.inl hh
    · rw [h1] at hh
      rcases List.mem_append.mp hh with h2 | h2
      · exact Or.inl h2
      · have : h = x := by simpa using h2
        subst this
        exact Or.inr (Or.inl ⟨fi, rfl, hs, hk, hname, hwr⟩)

/-- The walk over the entries of the working directory: nothing written
earlier is lost, every header added stems from one of the entries, and when the
walk ends without an error every regular file that is not the sentinel and
passes the size filter has been written. -/
theorem walkList_top (rooted : Bool) (d : Nat) (segs : List Str)
    (hc : Canon rooted (d, segs)) (hne : render rooted d segs ≠ []) :
    ∀ (cs : List Node) (tw : List Header),
      (∀ c ∈ cs, NormalSeg c.name ∧ ∀ g ∈ c.children, NormalSeg g.name) →
      (∀ h ∈ tw, h ∈ (walkList (render rooted d segs) (render rooted d segs) cs tw).1)
      ∧ (∀ h ∈ (walkList (render rooted d segs) (render rooted d segs) cs tw).1,
          h ∈ tw ∨ ∃ c ∈ cs, FromChild c h)
      ∧ ((walkList (render rooted d segs) (render rooted d segs) cs tw).2 = .nil →
          ∀ c ∈ cs, ∀ fi, c.info = some fi → fi.kind = .regular → c.name ≠ modtimeFile →
            keepFile c.name fi →
            ∃ h ∈ (walkList (render rooted d segs) (render rooted d segs) cs tw).1,
              h.name = c.name ∧ h.size = fi.size ∧ h.typeflag = '0') := by
  intro cs
  induction cs with
  | nil =>
    intro tw _
    simp [walkList]
  | cons c cs ih =>
    intro tw hcs
    have hrest : ∀ x ∈ cs, NormalSeg x.name ∧ ∀ g ∈ x.children, NormalSeg g.name :=
      fun x hx => hcs x (List.mem_cons_of_mem _ hx)
    obtain ⟨hcn, hcg⟩ := hcs c (by simp)
    obtain ⟨n, info, err, gcs⟩ := c
    have hn : NormalSeg n := hcn
    have hg : ∀ g ∈ gcs, NormalSeg g.name := hcg
    have hj : Join [render rooted d segs, n] = render rooted d (segs ++ [n]) := by
      have := (child_path rooted d segs [] n hc hne (by simp) hn).1
      simpa using this
    cases info with
    | none =>
      rw [walkList]
      simp only [tarVisit, ne_eq, not_true_eq_false, false_and, if_false]
      obtain ⟨ih1, ih2, ih3⟩ := ih tw hrest
      refine ⟨ih1, fun h hh => ?_, fun hnil c' hc' fi hfi hk hs hkeep => ?_⟩
      · rcases ih2 h hh with h1 | ⟨x, hx, rest⟩
        · exact Or.inl h1
        · exact Or.inr ⟨x, List.mem_cons_of_mem _ hx, rest⟩
      · rcases List.mem_cons.mp hc' with h1 | h1
        · subst h1; simp [Node.info] at hfi
        · exact ih3 hnil c' h1 fi hfi hk hs hkeep
    | some fi =>
      rw [walkList, hj]
      obtain ⟨w1, w2, w3⟩ := walk_child rooted d segs n fi err gcs tw hc hne hn hg
      generalize walk (render rooted d segs) (render rooted d (segs ++ [n]))
        (.mk n (some fi) err gcs) tw = r at w1 w2 w3
      split
      · rename_i hstop
        refine ⟨w1, fun h hh => ?_, fun hnil => absurd hnil hstop.1⟩
        rcases w2 h hh with h1 | h1
        · exact Or.inl h1
        · exact Or.inr ⟨_, by simp, h1⟩
      · rename_i hcont
        obtain ⟨ih1, ih2, ih3⟩ := ih r.1 hrest
        refine ⟨fun h hh => ih1 h (w1 h hh), fun h hh => ?_,
          fun hnil c' hc' fi' hfi hk hs hkeep => ?_⟩
        · rcases ih2 h hh with h1 | ⟨x, hx, rest⟩
          · rcases w2 h h1 with h2 | h2
            · exact Or.inl h2
            · exact Or.inr ⟨_, by simp, h2⟩
          · exact Or.inr ⟨x, List.mem_cons_of_mem _ hx, rest⟩
        · rcases List.mem_cons.mp hc' with h1 | h1
          · subst h1
            have hfe : fi' = fi := by
              simp only [Node.info, Option.some.injEq] at hfi
              exact hfi.symm
            subst hfe
            have hrn : r.2 = .nil := by
              by_contra hne2
              apply hcont
              refine ⟨hne2, Or.inl ?_⟩
              simp [FileInfo.IsDir, hk]
            obtain ⟨h, hh, rest⟩ := w3 hrn hk hs hkeep
            exact ⟨h, ih1 h hh, rest⟩
          · exact ih3 hnil c' h1 fi' hfi hk hs hkeep

theorem tarVisit_skipDir (w path base : Str) (info : Option FileInfo) (tw : List Header)
    (h : (tarVisit w path base info tw).2 = .skipDir) :
    ∃ fi, info = some fi ∧ fi.IsDir = true := by
  cases info with
  | none => simp [tarVisit] at h
  | some fi =>
    by_cases hp : startsWith path w = true
    · rw [tarVisit_some _ _ _ _ _ hp] at h
      exact ⟨fi, rfl, visitNamed_skipDir _ _ _ _ _ h⟩
    · simp [tarVisit, hp] at h

/-- The loop over a listing never ends with `SkipDir`. -/
theorem walkList_not_skipDir (w path : Str) :
    ∀ (ns : List Node) (tw : List Header), (walkList w path ns tw).2 ≠ .skipDir := by
  intro ns
  induction ns with
  | nil => intro tw; simp [walkList]
  | cons n ns ih =>
    intro tw
    obtain ⟨base, info, err, cs⟩ := n
    cases info with
    | none =>
      rw [walkList]
      split
      · rename_i hstop; exact hstop.2
      · exact ih _
    | some fi =>
      rw [walkList]
      split
      · rename_i hstop
        rcases hstop.2 with hd | hd
        · intro hs
          rw [walk_file _ _ _ _ _ _ _ hd] at hs
          obtain ⟨fi', h1, h2⟩ := tarVisit_skipDir _ _ _ _ _ hs
          have : fi' = fi := by simpa using h1.symm
          subst this
          exact hd h2
        · exact hd
      · exact ih _

/-- For a listable directory at a clean path, `makeTar` writes what the walk
over the entries of the directory writes, and it returns an error exactly when
that walk does. -/
theorem makeTar_eq_walkList (fs : FS) (w rn : Str) (rfi : FileInfo) (cs : List Node)
    (hroot : fs.lstat w = some (.mk rn (some rfi) false cs)) (hdir : rfi.IsDir = true) :
    makeTar fs w = walkList w w cs [] := by
  unfold makeTar
  rw [hroot]
  simp only []
  have hv : tarVisit w w rn (some rfi) [] = ([], .nil) := by
    rw [tarVisit_some _ _ _ _ _ (rel_self w).1, (rel_self w).2, visitNamed_dir _ _ _ _ _ hdir]
    simp
  rw [walk_dir _ _ _ _ _ _ _ hdir, hv]
  simp only [Bool.false_eq_true, ne_eq, not_true_eq_false, or_self, if_false]
  rw [if_neg (walkList_not_skipDir w w cs [])]

theorem keepFile_iff (name : Str) (fi : FileInfo) :
    keepFile name fi ↔
      fi.size ≤ 1048576 ∧ (endsWith name ".go".toList = true ∨ fi.size ≤ 10240) := by
  unfold keepFile
  have h1 : 10 <<< 10 = 10240 := by decide
  have h2 : 1 <<< 20 = 1048576 := by decide
  rw [h1, h2]
  constructor
  · rintro ⟨a, b⟩
    refine ⟨by omega, ?_⟩
    by_cases he : endsWith name ".go".toList = true
    · exact Or.inl he
    · right
      by_contra hgt
      exact a ⟨he, by omega⟩
  · rintro ⟨a, b⟩
    refine ⟨?_, by omega⟩
    rintro ⟨he, hgt⟩
    rcases b with b | b
    · exact he b
    · omega

theorem name_eq_of_nodup (cs : List Node) (hnd : (cs.map Node.name).Nodup) (c c1 : Node)
    (hc : c ∈ cs) (hc1 : c1 ∈ cs) (hname : c1.name = c.name) : c1 = c :=
  List.inj_on_of_nodup_map hnd hc1 hc hname

theorem slash_name_ne (a g c : Str) (hc : '/' ∉ c) : a ++ '/' :: g ≠ c := by
  intro h
  exact hc (by rw [← h]; simp)

theorem startsWith_mem (s p : Str) (h : startsWith s p = true) : ∀ x ∈ p, x ∈ s := by
  unfold startsWith at h
  rw [List.isPrefixOf_iff_prefix] at h
  obtain ⟨t, ht⟩ := h
  intro x hx
  rw [← ht]
  exact List.mem_append_left _ hx

theorem slash_split_unique : ∀ (a c x y : Str), '/' ∉ a → '/' ∉ c →
    a ++ '/' :: x = c ++ '/' :: y → a = c := by
  intro a
  induction a with
  | nil =>
    intro c x y _ hc h
    cases c with
    | nil => rfl
    | cons e c' =>
      simp only [List.nil_append, List.cons_append, List.cons.injEq] at h
      exact absurd (by rw [← h.1]; simp) hc
  | cons b a ih =>
    intro c x y ha hc h
    cases c with
    | nil =>
      simp only [List.nil_append, List.cons_append, List.cons.injEq] at h
      exact absurd (by rw [h.1]; simp) ha
    | cons e c' =>
      simp only [List.cons_append, List.cons.injEq] at h
      rw [h.1, ih c' x y (fun hm => ha (List.mem_cons_of_mem _ hm))
        (fun hm => hc (List.mem_cons_of_mem _ hm)) h.2]

theorem written_typeflag (fi : FileInfo) (name : Str) (h : Header) (hw : Written fi name h) :
    h.typeflag ≠ '5' := by
  obtain ⟨hd, path, base, h0, hh, rfl⟩ := hw
  rw [(normalize_size _ _ _).2]
  unfold tarFileInfoHeader at hh
  cases hk : fi.kind
  all_goals rw [hk] at hh
  all_goals simp only [] at hh
  case dir => simp [FileInfo.IsDir, hk] at hd
  case symlink =>
    split at hh
    · simp at hh
    · split at hh
      · simp at hh
      · simp only [Except.ok.injEq] at hh
        rw [← hh]
        show ('2' : Char) ≠ '5'
        decide
  case other => simp at hh
  case regular =>
    simp only [Except.ok.injEq] at hh
    rw [← hh]
    show ('0' : Char) ≠ '5'
    decide
  case charDevice =>
    simp only [Except.ok.injEq] at hh
    rw [← hh]
    show ('3' : Char) ≠ '5'
    decide
  case blockDevice =>
    simp only [Except.ok.injEq] at hh
    rw [← hh]
    show ('4' : Char) ≠ '5'
    decide
  case socket =>
    simp only [Except.ok.injEq] at hh
    rw [← hh]
    show Char.ofNat 0 ≠ '5'
    decide

/-- C4 as amended: let `rootDir` be a clean path at which `Lstat` finds a
directory whose listing succeeds and whose entries have proper, pairwise
different names.  Then `makeTar` writes no directory entry at all, and for every
immediate subdirectory that is not named like the sentinel the archive holds
neither an entry named after it nor an entry below it. -/
theorem makeTar_omits_subdirectories (fs : FS) (w rn : Str) (rfi : FileInfo) (cs : List Node)
    (hw : CleanDir w) (hroot : fs.lstat w = some (.mk rn (some rfi) false cs))
    (hdir : rfi.IsDir = true) (hwf : WFList cs) :
    (∀ h ∈ (makeTar fs w).1, h.typeflag ≠ '5')
    ∧ ∀ c ∈ cs, ∀ fi, c.info = some fi → fi.IsDir = true → c.name ≠ modtimeFile →
        ∀ h ∈ (makeTar fs w).1,
          h.name ≠ c.name ∧ startsWith h.name (c.name ++ ['/']) = false := by
  obtain ⟨rooted, d, segs, hc, hwr, hne⟩ := cleanDir_form w hw
  rw [makeTar_eq_walkList fs w rn rfi cs hroot hdir]
  subst hwr
  obtain ⟨_, hfrom, _⟩ := walkList_top rooted d segs hc hne cs [] hwf.2
  constructor
  · intro h hh
    rcases hfrom h hh with h1 | ⟨c1, _, hfc⟩
    · simp at h1
    · rcases hfc with ⟨fi1, _, _, _, _, hwr1⟩ | ⟨_, _, g, _, gfi, _, _, hwr1⟩
      · exact written_typeflag _ _ _ hwr1
      · exact written_typeflag _ _ _ hwr1
  · intro c hcm fi hfi hd hns h hh
    have hcn : NormalSeg c.name := (hwf.2 c hcm).1
    rcases hfrom h hh with h1 | ⟨c1, hc1, hfc⟩
    · simp at h1
    · rcases hfc with ⟨fi1, hfi1, _, _, hname, hwr1⟩ | ⟨hs, _, g, _, gfi, _, hname, _⟩
      · constructor
        · intro heq
          have hsame : c1 = c := name_eq_of_nodup cs hwf.1 c c1 hcm hc1 (by rw [← hname, heq])
          subst hsame
          rw [hfi] at hfi1
          have : fi = fi1 := by simpa using hfi1
          subst this
          exact hwr1.1 hd
        · cases hsw : startsWith h.name (c.name ++ ['/']) with
          | false => rfl
          | true =>
            have := startsWith_mem _ _ hsw '/' (by simp)
            rw [hname] at this
            exact absurd this (hwf.2 c1 hc1).1.2.1
      · constructor
        · rw [hname]
          exact slash_name_ne _ _ _ hcn.2.1
        · cases hsw : startsWith h.name (c.name ++ ['/']) with
          | false => rfl
          | true =>
            unfold startsWith at hsw
            rw [List.isPrefixOf_iff_prefix] at hsw
            obtain ⟨t, ht⟩ := hsw
            rw [hname, List.append_assoc] at ht
            have := slash_split_unique c.name modtimeFile ([] ++ t) g.name hcn.2.1 (by decide)
              (by simpa using ht)
            exact absurd this hns

/-- C6 as amended: let `rootDir` be a clean path at which `Lstat` finds a
directory whose listing succeeds and whose entries have proper, pairwise
different names, and let a regular file with name `n` and size `s` be one of
them.  If the archive holds an entry named `n`, then `n` is not the sentinel
name, `s ≤ 1048576` and (`n` ends in `.go` or `s ≤ 10240`); and if `makeTar`
returns without an error, the converse holds: the archive then holds an entry
named `n`, of size `s`, for a regular file. -/
theorem makeTar_regular_file (fs : FS) (w rn : Str) (rfi : FileInfo) (cs : List Node)
    (hw : CleanDir w) (hroot : fs.lstat w = some (.mk rn (some rfi) false cs))
    (hdir : rfi.IsDir = true) (hwf : WFList cs)
    (c : Node) (hcm : c ∈ cs) (fi : FileInfo) (hfi : c.info = some fi)
    (hreg : fi.kind = .regular) :
    ((∃ h ∈ (makeTar fs w).1, h.name = c.name) →
      c.name ≠ modtimeFile ∧ fi.size ≤ 1048576
        ∧ (endsWith c.name ".go".toList = true ∨ fi.size ≤ 10240))
    ∧ ((makeTar fs w).2 = .nil → c.name ≠ modtimeFile → fi.size ≤ 1048576 →
        (endsWith c.name ".go".toList = true ∨ fi.size ≤ 10240) →
        ∃ h ∈ (makeTar fs w).1, h.name = c.name ∧ h.size = fi.size ∧ h.typeflag = '0') := by
  obtain ⟨rooted, d, segs, hc, hwr, hne⟩ := cleanDir_form w hw
  rw [makeTar_eq_walkList fs w rn rfi cs hroot hdir]
  subst hwr
  obtain ⟨_, hfrom, hall⟩ := walkList_top rooted d segs hc hne cs [] hwf.2
  have hcn : NormalSeg c.name := (hwf.2 c hcm).1
  constructor
  · rintro ⟨h, hh, hname⟩
    rcases hfrom h hh with h1 | ⟨c1, hc1, hfc⟩
    · simp at h1
    · rcases hfc with ⟨fi1, hfi1, hns, hkeep, hname1, _⟩ | ⟨_, _, g, _, gfi, _, hname1, _⟩
      · have hsame : c1 = c := name_eq_of_nodup cs hwf.1 c c1 hcm hc1 (by rw [← hname1, hname])
        subst hsame
        rw [hfi] at hfi1
        have : fi = fi1 := by simpa using hfi1
        subst this
        exact ⟨hns, (keepFile_iff _ _).mp hkeep⟩
      · rw [hname1] at hname
        exact absurd hname (slash_name_ne _ _ _ hcn.2.1)
  · intro hnil hns h1 h2
    exact hall hnil c hcm fi hfi hreg hns ((keepFile_iff _ _).mpr ⟨h1, h2⟩)

theorem andNot_low (m : Nat) : andNot m 0o777 = 2 ^ 9 * (m / 2 ^ 9) := by
  apply Nat.eq_of_testBit_eq
  intro i
  unfold andNot
  have h777 : (0o777 : Nat) = 2 ^ 9 - 1 := by norm_num
  rw [h777]
  have hmul := Nat.testBit_mul_pow_two_add (m / 2 ^ 9) (show 0 < 2 ^ 9 by norm_num) i
  rw [Nat.add_zero] at hmul
  rw [hmul]
  simp only [Nat.testBit_xor, Nat.testBit_and, Nat.testBit_two_pow_sub_one]
  by_cases hi : i < 9
  · simp [hi]
  · rw [if_neg hi, ← Nat.shiftRight_eq_div_pow, Nat.testBit_shiftRight]
    have : 9 + (i - 9) = i := by omega
    rw [this]
    simp [hi]

/-- Replacing the low nine bits: `m &^ 0777 | v` has the low nine bits `v` and
the bits of `m` above them. -/
theorem mode_bits (m v : Nat) (hv : v < 512) :
    (andNot m 0o777 ||| v) % 512 = v ∧ (andNot m 0o777 ||| v) / 512 = m / 512 := by
  rw [andNot_low, ← Nat.mul_add_lt_is_or (show v < 2 ^ 9 by norm_num; exact hv)]
  have h : (2 : Nat) ^ 9 = 512 := by norm_num
  rw [h]
  constructor <;> omega

/-- The header fields fixed by lines 124-135. -/
theorem normalize_fields (fi : FileInfo) (name : Str) (h0 : Header) :
    (normalize fi name h0).uid = 0 ∧ (normalize fi name h0).gid = 0
    ∧ (normalize fi name h0).uname = "root".toList ∧ (normalize fi name h0).gname = "root".toList
    ∧ (normalize fi name h0).mode % 512 = (if fi.Perm &&& 0o111 ≠ 0 then 0o755 else 0o644)
    ∧ (normalize fi name h0).mode / 512 = h0.mode / 512 := by
  unfold normalize
  by_cases hx : fi.Perm &&& 0o111 ≠ 0
  · simp only []
    rw [if_pos hx, if_pos hx]
    exact ⟨rfl, rfl, rfl, rfl, mode_bits h0.mode 0o755 (by norm_num)⟩
  · simp only []
    rw [if_neg hx, if_neg hx]
    exact ⟨rfl, rfl, rfl, rfl, mode_bits h0.mode 0o644 (by norm_num)⟩

/-- The walk function leaves the archive as it is or appends the normalized
header of the very file it was called on. -/
theorem visitNamed_exact (name path base : Str) (fi : FileInfo) (tw : List Header) :
    (visitNamed name path base fi tw).1 = tw ∨
    (¬ fi.IsDir = true ∧ ∃ h0, tarFileInfoHeader base fi path = .ok h0
      ∧ (visitNamed name path base fi tw).1 = tw ++ [normalize fi name h0]) := by
  unfold visitNamed
  by_cases h1 : name = modtimeFile
  · rw [if_pos h1]; exact Or.inl rfl
  · rw [if_neg h1]
    by_cases h2 : fi.IsDir = true
    · rw [if_pos h2]
      split <;> exact Or.inl rfl
    · rw [if_neg h2]
      by_cases h3 : ¬ endsWith name ".go".toList ∧ fi.size > 10 <<< 10
      · rw [if_pos h3]; exact Or.inl rfl
      · rw [if_neg h3]
        by_cases h4 : fi.size > 1 <<< 20
        · rw [if_pos h4]; exact Or.inl rfl
        · rw [if_neg h4]
          cases hh : tarFileInfoHeader base fi path with
          | error e => exact Or.inl rfl
          | ok hdr =>
            simp only []
            cases fi.outcome with
            | headerFails => exact Or.inl rfl
            | ok => exact Or.inr ⟨h2, hdr, rfl, rfl⟩
            | openFails => exact Or.inr ⟨h2, hdr, rfl, rfl⟩
            | copyFails => exact Or.inr ⟨h2, hdr, rfl, rfl⟩

theorem tarVisit_at (w path base : Str) (info : Option FileInfo) (tw : List Header) :
    ∀ h ∈ (tarVisit w path base info tw).1,
      h ∈ tw ∨ ∃ fi, info = some fi ∧ WrittenAt w path base fi h := by
  intro h hh
  cases info with
  | none => exact Or.inl (by simpa [tarVisit] using hh)
  | some fi =>
    by_cases hp : startsWith path w = true
    · rw [tarVisit_some _ _ _ _ _ hp] at hh
      rcases visitNamed_exact (relName w path) path base fi tw with h1 | ⟨hd, h0, hh0, h1⟩
      · rw [h1] at hh; exact Or.inl hh
      · rw [h1] at hh
        rcases List.mem_append.mp hh with h2 | h2
        · exact Or.inl h2
        · have : h = normalize fi (relName w path) h0 := by simpa using h2
          exact Or.inr ⟨fi, rfl, hd, h0, hh0, this⟩
    · exact Or.inl (by simpa [tarVisit, hp] using hh)

mutual
/-- Every header the walk adds is written for a node of the tree: for the
`Lstat` result of that node, under the name of that node's path. -/
theorem walk_at (w : Str) : ∀ (node : Node) (path : Str) (tw : List Header),
    ∀ h ∈ (walk w path node tw).1,
      h ∈ tw ∨ ∃ e ∈ nodesAt path node, WrittenAt w e.1 e.2.1 e.2.2 h
  | .mk base none err cs, path, tw => by
    intro h hh
    rw [walk] at hh
    exact Or.inl (by simpa [tarVisit] using hh)
  | .mk base (some fi) err cs, path, tw => by
    intro h hh
    have hv := tarVisit_at w path base (some fi) tw
    have hself : ∀ x, (∃ fi1, some fi = some fi1 ∧ WrittenAt w path base fi1 x) →
        ∃ e ∈ nodesAt path (.mk base (some fi) err cs), WrittenAt w e.1 e.2.1 e.2.2 x := by
      rintro x ⟨fi1, h1, rest⟩
      have : fi = fi1 := by simpa using h1
      subst this
      exact ⟨(path, base, fi), by simp [nodesAt], rest⟩
    by_cases hd : fi.IsDir = true
    · rw [walk_dir _ _ _ _ _ _ _ hd] at hh
      split at hh
      · rcases hv h hh with h1 | h1
        · exact Or.inl h1
        · exact Or.inr (hself h h1)
      · rcases walkList_at w cs path _ h hh with h1 | ⟨e, hm, rest⟩
        · rcases hv h h1 with h2 | h2
          · exact Or.inl h2
          · exact Or.inr (hself h h2)
        · exact Or.inr ⟨e, by simp only [nodesAt, List.mem_append]; exact Or.inr hm, rest⟩
    · rw [walk_file _ _ _ _ _ _ _ hd] at hh
      rcases hv h hh with h1 | h1
      · exact Or.inl h1
      · exact Or.inr (hself h h1)
/-- The same for the loop over a listing. -/
theorem walkList_at (w : Str) : ∀ (ns : List Node) (path : Str) (tw : List Header),
    ∀ h ∈ (walkList w path ns tw).1,
      h ∈ tw ∨ ∃ e ∈ nodesAtList path ns, WrittenAt w e.1 e.2.1 e.2.2 h
  | [], path, tw => by
    intro h hh
    exact Or.inl (by simpa [walkList] using hh)
  | .mk base none err cs :: ns, path, tw => by
    intro h hh
    rw [walkList] at hh
    simp only [tarVisit, ne_eq, not_true_eq_false, false_and, if_false] at hh
    rcases walkList_at w ns path tw h hh with h1 | ⟨e, hm, rest⟩
    · exact Or.inl h1
    · exact Or.inr ⟨e, by simp only [nodesAtList, List.mem_append]; exact Or.inr hm, rest⟩
  | .mk base (some fi) err cs :: ns, path, tw => by
    intro h hh
    rw [walkList] at hh
    have hhead := walk_at w (.mk base (some fi) err cs) (Join [path, base]) tw
    split at hh
    · rcases hhead h hh with h1 | ⟨e, hm, rest⟩
      · exact Or.inl h1
      · exact Or.inr ⟨e, by simp only [nodesAtList, List.mem_append]; exact Or.inl hm, rest⟩
    · rcases walkList_at w ns path _ h hh with h1 | ⟨e, hm, rest⟩
      · rcases hhead h h1 with h2 | ⟨e2, hm2, rest2⟩
        · exact Or.inl h2
        · exact Or.inr ⟨e2, by simp only [nodesAtList, List.mem_append]; exact Or.inl hm2, rest2⟩
      · exact Or.inr ⟨e, by simp only [nodesAtList, List.mem_append]; exact Or.inr hm, rest⟩
end

/-- C7: every header `h` that `makeTar` writes has `Uid = 0`, `Gid = 0` and
`Uname = Gname = "root"`, and it belongs to one node of the tree at the working
directory, which is not a directory: with `path` the path under which the walk
reaches that node and `fi` its `Lstat` result, `h` is named after `path`
(relative to the working directory) and is the header `h0` that
`tarFileInfoHeader` builds for `fi`, normalized; the low nine bits of its `Mode`
are 0755 when `fi.Mode().Perm() & 0111 != 0` for this very file and 0644
otherwise, and the bits above them are those of `h0.Mode`. -/
theorem makeTar_header_fields (fs : FS) (w : Str) :
    ∀ h ∈ (makeTar fs w).1,
      h.uid = 0 ∧ h.gid = 0 ∧ h.uname = "root".toList ∧ h.gname = "root".toList
      ∧ ∃ root, fs.lstat w = some root ∧ ∃ path base fi, (path, base, fi) ∈ nodesAt w root
          ∧ ¬ fi.IsDir = true ∧ h.name = relName w path
          ∧ ∃ h0, tarFileInfoHeader base fi path = .ok h0
            ∧ h = normalize fi (relName w path) h0
            ∧ h.mode % 512 = (if fi.Perm &&& 0o111 ≠ 0 then 0o755 else 0o644)
            ∧ h.mode / 512 = h0.mode / 512 := by
  intro h hh
  have hentries : (makeTar fs w).1 = (match fs.lstat w with
      | none => tarVisit w w [] none []
      | some root => walk w w root []).1 := by
    unfold makeTar
    simp only []
    split <;> rfl
  rw [hentries] at hh
  cases hl : fs.lstat w with
  | none =>
    rw [hl] at hh
    simp [tarVisit] at hh
  | some root =>
    rw [hl] at hh
    rcases walk_at w root w [] h hh with h1 | ⟨⟨path, base, fi⟩, hm, hd, h0, hh0, heq⟩
    · simp at h1
    · obtain ⟨a, b, c, d, e, f⟩ := normalize_fields fi (relName w path) h0
      subst heq
      exact ⟨a, b, c, d, root, rfl, path, base, fi, hm, hd, normalize_name _ _ _, h0, hh0, rfl,
        e, f⟩

/-- Counterexample to C4: the directory of the archive example has the
immediate subdirectory `sub`, and the archive `makeTar` writes for it holds the
single entry `main.go`: there is no entry for `sub`. -/
theorem subdirectory_gets_no_entry :
    exPkgTree.children.map (fun c => (c.name, c.info.map (fun fi => fi.kind)))
      = [(".go-get-proxy-last".toList, some .regular), ("big.bin".toList, some .regular),
         ("main.go".toList, some .regular), ("sub".toList, some .dir)]
    ∧ ((makeTar (exTreeFS exPkgTree) "/go/src/pkg".toList).1.map (fun h => h.name),
        (makeTar (exTreeFS exPkgTree) "/go/src/pkg".toList).2)
      = (["main.go".toList], .nil) := by
  decide

theorem makeTar_omits_subdirectories_witness :
    (∀ h ∈ (makeTar (exTreeFS exPkgTree) "/go/src/pkg".toList).1, h.typeflag ≠ '5')
    ∧ ∀ c ∈ exPkgTree.children, ∀ fi, c.info = some fi → fi.IsDir = true →
        c.name ≠ modtimeFile →
        ∀ h ∈ (makeTar (exTreeFS exPkgTree) "/go/src/pkg".toList).1,
          h.name ≠ c.name ∧ startsWith h.name (c.name ++ ['/']) = false :=
  makeTar_omits_subdirectories (exTreeFS exPkgTree) "/go/src/pkg".toList "pkg".toList
    ⟨.dir, 0o755, 4096, 0, none, .ok⟩ exPkgTree.children (by decide) (by rfl) (by rfl)
    (by decide)

theorem makeTar_header_fields_witness :
    exScriptHeader.uid = 0 ∧ exScriptHeader.gid = 0 ∧ exScriptHeader.uname = "root".toList
    ∧ exScriptHeader.gname = "root".toList
    ∧ ∃ root, (exTreeFS exModeTree).lstat "/go/src/pkg".toList = some root
      ∧ ∃ path base fi, (path, base, fi) ∈ nodesAt "/go/src/pkg".toList root
          ∧ ¬ fi.IsDir = true ∧ exScriptHeader.name = relName "/go/src/pkg".toList path
          ∧ ∃ h0, tarFileInfoHeader base fi path = .ok h0
            ∧ exScriptHeader = normalize fi (relName "/go/src/pkg".toList path) h0
            ∧ exScriptHeader.mode % 512 = (if fi.Perm &&& 0o111 ≠ 0 then 0o755 else 0o644)
            ∧ exScriptHeader.mode / 512 = h0.mode / 512 :=
  makeTar_header_fields (exTreeFS exModeTree) "/go/src/pkg".toList exScriptHeader (by decide)

/-- On the directory with the two files `a.sh` (permissions 0755) and `b.txt`
(permissions 0644) the archive holds `a.sh` with mode 0100755 and `b.txt` with
mode 0100644, and the only node of the tree whose path gives the name `a.sh` is
the file with permissions 0755: a header is tied to its file by its name. -/
theorem mode_tree_archive :
    (makeTar (exTreeFS exModeTree) "/go/src/pkg".toList).1.map (fun h => (h.name, h.mode))
      = [("a.sh".toList, 0o100755), ("b.txt".toList, 0o100644)]
    ∧ ∀ e ∈ nodesAt "/go/src/pkg".toList exModeTree,
        relName "/go/src/pkg".toList e.1 = "a.sh".toList → e.2.2.Perm = 0o755 := by
  decide

/-- C5 at the failing input: for a working directory that holds a directory
named `.go-get-proxy-last` with the file `x.go` in it, `makeTar` returns without
an error and the archive holds one entry, named `.go-get-proxy-last/x.go`: a
file at depth two whose name contains a path separator. -/
theorem sentinel_directory_is_entered :
    ((makeTar (exTreeFS exSentinelDirTree) "/go/src/pkg".toList).1.map (fun h => h.name),
      (makeTar (exTreeFS exSentinelDirTree) "/go/src/pkg".toList).2)
      = ([".go-get-proxy-last/x.go".toList], .nil) := by
  decide

/-- Counterexample to C6: the working directory holds the named pipe `a` and the
regular file `b.go` of 12 bytes; the walk stops with an error at `a`, so the
archive holds no entry for `b.go` although it is not the sentinel, ends in
`.go` and is below both size limits. -/
theorem regular_file_after_error_is_missing :
    exPipeTree.children.map (fun c => (c.name, c.info.map (fun fi => (fi.kind, fi.size))))
      = [("a".toList, some (.other, 0)), ("b.go".toList, some (.regular, 12))]
    ∧ "b.go".toList ≠ modtimeFile ∧ endsWith "b.go".toList ".go".toList = true
    ∧ makeTar (exTreeFS exPipeTree) "/go/src/pkg".toList = ([], .err .unknownMode) := by
  decide

theorem makeTar_regular_file_witness :
    ((∃ h ∈ (makeTar (exTreeFS exPkgTree) "/go/src/pkg".toList).1, h.name = "main.go".toList) →
      "main.go".toList ≠ modtimeFile ∧ 200 ≤ 1048576
        ∧ (endsWith "main.go".toList ".go".toList = true ∨ 200 ≤ 10240))
    ∧ ((makeTar (exTreeFS exPkgTree) "/go/src/pkg".toList).2 = .nil →
        "main.go".toList ≠ modtimeFile → 200 ≤ 1048576 →
        (endsWith "main.go".toList ".go".toList = true ∨ 200 ≤ 10240) →
        ∃ h ∈ (makeTar (exTreeFS exPkgTree) "/go/src/pkg".toList).1,
          h.name = "main.go".toList ∧ h.size = 200 ∧ h.typeflag = '0') :=
  makeTar_regular_file (exTreeFS exPkgTree) "/go/src/pkg".toList "pkg".toList
    ⟨.dir, 0o755, 4096, 0, none, .ok⟩ exPkgTree.children (by decide) (by rfl) (by rfl)
    (by decide) (exFile "main.go".toList 200)
    (by simp [exPkgTree, exDir, Node.children]) ⟨.regular, 0o644, 200, 0, none, .ok⟩ (by rfl)
    (by rfl)

/-! ## Interleaved calls of `getPackage` -/

theorem countP_set (p : Thread → Bool) : ∀ (l : List Thread) (i : Nat) (t t1 : Thread),
    l.get? i = some t →
    (l.set i t1).countP p + (if p t = true then 1 else 0)
      = l.countP p + (if p t1 = true then 1 else 0) := by
  intro l
  induction l with
  | nil => intro i t t1 h; simp at h
  | cons a l ih =>
    intro i t t1 h
    cases i with
    | zero =>
      simp only [List.get?_cons_zero, Option.some.injEq] at h
      subst h
      simp only [List.set_cons_zero, List.countP_cons]
      omega
    | succ i =>
      simp only [List.get?_cons_succ] at h
      have := ih i t t1 h
      simp only [List.set_cons_succ, List.countP_cons]
      omega

theorem sum_set (f : Thread → Nat) : ∀ (l : List Thread) (i : Nat) (t t1 : Thread),
    l.get? i = some t →
    ((l.set i t1).map f).sum + f t = (l.map f).sum + f t1 := by
  intro l
  induction l with
  | nil => intro i t t1 h; simp at h
  | cons a l ih =>
    intro i t t1 h
    cases i with
    | zero =>
      simp only [List.get?_cons_zero, Option.some.injEq] at h
      subst h
      simp only [List.set_cons_zero, List.map_cons, List.sum_cons]
      omega
    | succ i =>
      simp only [List.get?_cons_succ] at h
      have := ih i t t1 h
      simp only [List.set_cons_succ, List.map_cons, List.sum_cons]
      omega

theorem countP_two (p : Thread → Bool) : ∀ (l : List Thread) (i j : Nat) (ti tj : Thread),
    l.get? i = some ti → l.get? j = some tj → i ≠ j → p ti = true → p tj = true →
    2 ≤ l.countP p := by
  intro l
  induction l with
  | nil => intro i j ti tj h; simp at h
  | cons a l ih =>
    intro i j ti tj hi hj hne hpi hpj
    have hone : ∀ (k : Nat) (t : Thread), l.get? k = some t → p t = true → 1 ≤ l.countP p := by
      intro k t hk hp
      exact List.countP_pos_iff.mpr ⟨t, List.get?_mem hk, hp⟩
    cases i with
    | zero =>
      cases j with
      | zero => exact absurd rfl hne
      | succ j =>
        simp only [List.get?_cons_zero, Option.some.injEq] at hi
        simp only [List.get?_cons_succ] at hj
        subst hi
        have := hone j tj hj hpj
        simp only [List.countP_cons, hpi, if_true]
        omega
    | succ i =>
      simp only [List.get?_cons_succ] at hi
      cases j with
      | zero =>
        simp only [List.get?_cons_zero, Option.some.injEq] at hj
        subst hj
        have := hone i ti hi hpi
        simp only [List.countP_cons, hpj, if_true]
        omega
      | succ j =>
        simp only [List.get?_cons_succ] at hj
        have := ih i j ti tj hi hj (by omega) hpi hpj
        simp only [List.countP_cons]
        omega

theorem lookupChan_cons_ne (p : List (Str × Nat)) (k k1 : Str) (c : Nat) (h : k1 ≠ k) :
    lookupChan ((k1, c) :: p) k = lookupChan p k := by
  simp [lookupChan, List.find?_cons, h]

theorem lookupChan_cons_eq (p : List (Str × Nat)) (k : Str) (c : Nat) :
    lookupChan ((k, c) :: p) k = some c := by
  simp [lookupChan, List.find?_cons]

theorem holds_chan (pc : Pc) (c : Nat) (h : pc.holds c = true) : pc.chan = some c := by
  cases pc <;> simp [Pc.holds] at h <;> simp [Pc.chan, h]

theorem inv_init (now : Int) (fs : FS) (pkgs : List Str) : Inv (initSys now fs pkgs) := by
  refine ⟨?_, ?_, ?_, ?_⟩
  · intro t ht c hc
    simp only [initSys, List.mem_map] at ht
    obtain ⟨p, _, rfl⟩ := ht
    simp [Pc.chan] at hc
  · intro c
    simp only [initSys, List.getD_nil, Bool.false_eq_true, if_false]
    rw [List.countP_eq_zero]
    intro t ht
    simp only [List.mem_map] at ht
    obtain ⟨p, _, rfl⟩ := ht
    simp [Pc.holds]
  · simp only [initSys, List.length_nil, List.map_map]
    symm
    rw [List.sum_eq_zero_iff]
    intro x hx
    simp only [List.mem_map, Function.comp] at hx
    obtain ⟨p, _, rfl⟩ := hx
    rfl
  · intro t ht
    simp only [initSys, List.mem_map] at ht
    obtain ⟨p, _, rfl⟩ := ht
    exact ⟨⟨rfl, rfl, rfl⟩, fun h => by simp at h⟩

theorem getD_set_self (l : List Bool) (c : Nat) (v d : Bool) (h : c < l.length) :
    (l.set c v).getD c d = v := by
  rw [List.getD_eq_getElem?_getD, List.getElem?_set_self h]
  rfl

theorem getD_set_ne (l : List Bool) (c c1 : Nat) (v d : Bool) (h : c ≠ c1) :
    (l.set c v).getD c1 d = l.getD c1 d := by
  rw [List.getD_eq_getElem?_getD, List.getD_eq_getElem?_getD, List.getElem?_set_ne h]

theorem getD_default (l : List Bool) (c : Nat) (d1 d2 : Bool) (h : c < l.length) :
    l.getD c d1 = l.getD c d2 := by
  rw [List.getD_eq_getElem?_getD, List.getD_eq_getElem?_getD, List.getElem?_eq_getElem h]
  rfl

theorem lt_of_getD_true_eq_false (l : List Bool) (c : Nat) (h : l.getD c true = false) :
    c < l.length := by
  by_contra hge
  rw [List.getD_eq_getElem?_getD, List.getElem?_eq_none (by omega)] at h
  simp at h

theorem lt_of_getD_false_eq_true (l : List Bool) (c : Nat) (h : l.getD c false = true) :
    c < l.length := by
  by_contra hge
  rw [List.getD_eq_getElem?_getD, List.getElem?_eq_none (by omega)] at h
  simp at h

theorem getD_snoc_false (l : List Bool) (c : Nat) :
    (l ++ [false]).getD c false = l.getD c false := by
  rw [List.getD_eq_getElem?_getD, List.getD_eq_getElem?_getD]
  by_cases h : c < l.length
  · rw [List.getElem?_append_left h]
  · rw [List.getElem?_append_right (by omega), List.getElem?_eq_none (l := l) (by omega)]
    by_cases h0 : c - l.length = 0
    · rw [h0]; rfl
    · rw [List.getElem?_eq_none (by simp; omega)]

/-- The invariant is kept when one call moves and the bookkeeping of its step
balances. -/
theorem inv_update (σ : Sys) (i : Nat) (t t1 : Thread) (s1 : Shared) (hinv : Inv σ)
    (hget : σ.threads.get? i = some t) (hpkg : t1.pkg = t.pkg)
    (h1 : ∀ k c, lookupChan σ.shared.pending k = some c → lookupChan s1.pending k = some c)
    (h1' : ∀ c, t1.pc.chan = some c → lookupChan s1.pending t.pkg = some c)
    (h2 : ∀ c, (if s1.chans.getD c false = true then 1 else 0)
              + (if t.pc.holds c = true then 1 else 0)
            = (if σ.shared.chans.getD c false = true then 1 else 0)
              + (if t1.pc.holds c = true then 1 else 0))
    (h3 : s1.fetched.length + t.ran = σ.shared.fetched.length + t1.ran)
    (h4 : phaseOk t1)
    (h5 : 1 ≤ t1.ran → ∃ c, lookupChan s1.pending t.pkg = some c) :
    Inv ⟨s1, σ.threads.set i t1⟩ := by
  obtain ⟨i1, i2, i3, i4⟩ := hinv
  refine ⟨?_, ?_, ?_, ?_⟩
  · intro x hx c hc
    rcases List.mem_or_eq_of_mem_set hx with h | h
    · exact h1 _ _ (i1 x h c hc)
    · subst h
      rw [hpkg]
      exact h1' c hc
  · intro c
    have hcs := countP_set (fun t => t.pc.holds c) σ.threads i t t1 hget
    have hold := i2 c
    have hbal := h2 c
    simp only [] at hcs hold ⊢
    omega
  · have hs := sum_set (fun t => t.ran) σ.threads i t t1 hget
    simp only [] at hs ⊢
    omega
  · intro x hx
    rcases List.mem_or_eq_of_mem_set hx with h | h
    · refine ⟨(i4 x h).1, fun hr => ?_⟩
      obtain ⟨c, hc⟩ := (i4 x h).2 hr
      exact ⟨c, h1 _ _ hc⟩
    · subst h
      refine ⟨h4, fun hr => ?_⟩
      rw [hpkg]
      exact h5 hr

theorem inv_gpStep (env : Env) (σ : Sys) (i : Nat) (t t1 : Thread) (s1 : Shared)
    (hinv : Inv σ) (hget : σ.threads.get? i = some t)
    (hstep : gpStep env σ.shared t = some (s1, t1)) :
    Inv ⟨s1, σ.threads.set i t1⟩ := by
  have hmem : t ∈ σ.threads := List.get?_mem hget
  obtain ⟨hphase, hentry⟩ := hinv.2.2.2 t hmem
  have hchan := hinv.1 t hmem
  have hcount := hinv.2.1
  unfold gpStep at hstep
  unfold phaseOk at hphase
  cases hpc : t.pc with
  | start =>
    rw [hpc] at hstep hphase
    simp only [] at hstep hphase
    obtain ⟨hs, hr, hf⟩ := hphase
    split at hstep
    · simp at hstep
    · simp only [Option.some.injEq, Prod.mk.injEq] at hstep
      obtain ⟨rfl, rfl⟩ := hstep
      refine inv_update σ i t _ _ hinv hget rfl (fun k c h => h) ?_ ?_ rfl ?_ ?_
      · intro c hc; simp [Pc.chan] at hc
      · intro c; simp [Pc.holds, hpc]
      · exact Or.inr ⟨hs, hr, hf⟩
      · intro h; simp only [hr] at h; omega
    · simp only [Option.some.injEq, Prod.mk.injEq] at hstep
      obtain ⟨rfl, rfl⟩ := hstep
      refine inv_update σ i t _ _ hinv hget rfl (fun k c h => h) ?_ ?_ rfl ?_ ?_
      · intro c hc; simp [Pc.chan] at hc
      · intro c; simp [Pc.holds, hpc]
      · exact ⟨rfl, hr, hf⟩
      · intro h; simp only [hr] at h; omega
  | lock =>
    rw [hpc] at hstep hphase
    simp only [] at hstep hphase
    obtain ⟨hs, hr, hf⟩ := hphase
    split at hstep
    · rename_i c hl
      simp only [Option.some.injEq, Prod.mk.injEq] at hstep
      obtain ⟨rfl, rfl⟩ := hstep
      refine inv_update σ i t _ _ hinv hget rfl (fun k c h => h) ?_ ?_ rfl ?_ ?_
      · intro c1 hc
        simp only [Pc.chan, Option.some.injEq] at hc
        subst hc; exact hl
      · intro c1; simp [Pc.holds, hpc]
      · exact ⟨hs, hr, hf⟩
      · intro h; simp only [hr] at h; omega
    · rename_i hl
      simp only [Option.some.injEq, Prod.mk.injEq] at hstep
      obtain ⟨rfl, rfl⟩ := hstep
      refine inv_update σ i t _ _ hinv hget rfl ?_ ?_ ?_ rfl ?_ ?_
      · intro k c h
        have hk : t.pkg ≠ k := by
          intro hk; subst hk; rw [hl] at h; simp at h
        show lookupChan ((t.pkg, σ.shared.chans.length) :: σ.shared.pending) k = some c
        rw [lookupChan_cons_ne _ _ _ _ hk]; exact h
      · intro c hc
        simp only [Pc.chan, Option.some.injEq] at hc
        subst hc
        exact lookupChan_cons_eq _ _ _
      · intro c
        show (if (σ.shared.chans ++ [false]).getD c false = true then 1 else 0) + _ = _
        rw [getD_snoc_false]
        simp [Pc.holds, hpc]
      · exact ⟨hs, hr, hf⟩
      · intro h; simp only [hr] at h; omega
  | send c =>
    rw [hpc] at hstep hphase
    simp only [] at hstep hphase
    obtain ⟨hs, hr, hf⟩ := hphase
    have hl := hchan c (by rw [hpc]; rfl)
    split at hstep
    · rename_i hfree
      simp only [Option.some.injEq, Prod.mk.injEq] at hstep
      obtain ⟨rfl, rfl⟩ := hstep
      have hlt := lt_of_getD_true_eq_false _ _ hfree
      have hfalse : σ.shared.chans.getD c false = false := by
        rw [getD_default _ _ false true hlt]; exact hfree
      refine inv_update σ i t _ _ hinv hget rfl (fun k c h => h) ?_ ?_ rfl ?_ ?_
      · intro c1 hc
        simp only [Pc.chan, Option.some.injEq] at hc
        subst hc; exact hl
      · intro c1
        show (if (σ.shared.chans.set c true).getD c1 false = true then 1 else 0) + _ = _
        by_cases hcc : c = c1
        · subst hcc
          rw [getD_set_self _ _ _ _ hlt, hfalse]
          simp [Pc.holds, hpc]
        · rw [getD_set_ne _ _ _ _ _ hcc]
          simp [Pc.holds, hpc, hcc]
      · exact ⟨hs, hr, hf⟩
      · intro _; exact ⟨c, hl⟩
    · simp at hstep
  | exec c =>
    rw [hpc] at hstep hphase
    simp only [] at hphase
    obtain ⟨hs, hr, hf⟩ := hphase
    simp only [Option.some.injEq, Prod.mk.injEq] at hstep
    obtain ⟨rfl, rfl⟩ := hstep
    have hl := hchan c (by rw [hpc]; rfl)
    refine inv_update σ i t _ _ hinv hget rfl (fun k c h => h) ?_ ?_ ?_ ?_ ?_
    · intro c1 hc
      simp only [Pc.chan, Option.some.injEq] at hc
      subst hc; exact hl
    · intro c1; simp [Pc.holds, hpc]
    · simp [hr]
    · exact ⟨hs, by simp [hr], hf⟩
    · intro _; exact ⟨c, hl⟩
  | running c =>
    rw [hpc] at hstep hphase
    simp only [] at hphase
    obtain ⟨hs, hr, hf⟩ := hphase
    simp only [Option.some.injEq, Prod.mk.injEq] at hstep
    obtain ⟨rfl, rfl⟩ := hstep
    have hl := hchan c (by rw [hpc]; rfl)
    refine inv_update σ i t _ _ hinv hget rfl (fun k c h => h) ?_ ?_ rfl ?_ ?_
    · intro c1 hc
      simp only [Pc.chan, Option.some.injEq] at hc
      subst hc; exact hl
    · intro c1; simp [Pc.holds, hpc]
    · exact ⟨hs, hr, by simp [hf]⟩
    · intro _; exact ⟨c, hl⟩
  | touch c res =>
    rw [hpc] at hstep hphase
    simp only [] at hphase
    obtain ⟨hs, hr, hf⟩ := hphase
    simp only [Option.some.injEq, Prod.mk.injEq] at hstep
    obtain ⟨rfl, rfl⟩ := hstep
    have hl := hchan c (by rw [hpc]; rfl)
    refine inv_update σ i t _ _ hinv hget rfl (fun k c h => h) ?_ ?_ rfl ?_ ?_
    · intro c1 hc
      simp only [Pc.chan, Option.some.injEq] at hc
      subst hc; exact hl
    · intro c1; simp [Pc.holds, hpc]
    · exact ⟨hs, hr, hf⟩
    · intro _; exact ⟨c, hl⟩
  | leave c res =>
    rw [hpc] at hstep hphase
    simp only [] at hphase
    obtain ⟨hs, hr, hf⟩ := hphase
    simp only [Option.some.injEq, Prod.mk.injEq] at hstep
    obtain ⟨rfl, rfl⟩ := hstep
    have hl := hchan c (by rw [hpc]; rfl)
    have hfull : σ.shared.chans.getD c false = true := by
      have h1 := hcount c
      have h2 : 0 < σ.threads.countP (fun t => t.pc.holds c) :=
        List.countP_pos_iff.mpr ⟨t, hmem, by simp [hpc, Pc.holds]⟩
      by_contra hne
      rw [if_neg hne] at h1
      omega
    have hlt := lt_of_getD_false_eq_true _ _ hfull
    refine inv_update σ i t _ _ hinv hget rfl (fun k c h => h) ?_ ?_ rfl ?_ ?_
    · intro c1 hc; simp [Pc.chan] at hc
    · intro c1
      show (if (σ.shared.chans.set c false).getD c1 false = true then 1 else 0) + _ = _
      by_cases hcc : c = c1
      · subst hcc
        rw [getD_set_self _ _ _ _ hlt, hfull]
        simp [Pc.holds, hpc]
      · rw [getD_set_ne _ _ _ _ _ hcc]
        simp [Pc.holds, hpc, hcc]
    · exact Or.inl ⟨hs, hr, hf⟩
    · intro _; exact ⟨c, hl⟩
  | done r =>
    rw [hpc] at hstep
    simp at hstep

theorem inv_sysStep (env : Env) (σ σ1 : Sys) (a : Action) (hinv : Inv σ)
    (h : sysStep env σ a = some σ1) : Inv σ1 := by
  cases a with
  | tick dt =>
    simp only [sysStep, Option.some.injEq] at h
    subst h
    exact hinv
  | run i =>
    simp only [sysStep] at h
    cases hget : σ.threads.get? i with
    | none => rw [hget] at h; simp at h
    | some t =>
      rw [hget] at h
      simp only [] at h
      cases hstep : gpStep env σ.shared t with
      | none => rw [hstep] at h; simp at h
      | some st =>
        rw [hstep] at h
        simp only [Option.some.injEq] at h
        subst h
        exact inv_gpStep env σ i t st.2 st.1 hinv hget hstep

theorem inv_sysRun (env : Env) : ∀ (sched : List Action) (σ σ1 : Sys), Inv σ →
    sysRun env σ sched = some σ1 → Inv σ1 := by
  intro sched
  induction sched with
  | nil =>
    intro σ σ1 hinv h
    simp only [sysRun, Option.some.injEq] at h
    subst h; exact hinv
  | cons a as ih =>
    intro σ σ1 hinv h
    simp only [sysRun] at h
    cases hs : sysStep env σ a with
    | none => rw [hs] at h; simp at h
    | some σ2 =>
      rw [hs] at h
      exact ih σ2 σ1 (inv_sysStep env σ σ2 a hinv hs) h

theorem holdsSlot_holds (pc : Pc) (h : pc.holdsSlot = true) : ∃ c, pc.holds c = true := by
  cases pc <;> simp [Pc.holdsSlot] at h <;> simp [Pc.holds]

/-- Counterexample to C1: two calls for `pkg` both find the directory stale
(after their first steps both stand before the lookup in `pending`); when they
have both returned the path, the retriever has been started twice. -/
theorem two_stale_callers_fetch_twice :
    (sysRun exOkEnv exTwoCalls (exSchedule.take 2)).map (fun σ => σ.threads.map (fun t => t.pc))
      = some [.lock, .lock]
    ∧ (sysRun exOkEnv exTwoCalls exSchedule).map
        (fun σ => (σ.shared.fetched, σ.threads.map (fun t => t.pc)))
      = some (["pkg".toList, "pkg".toList],
          [.done (.ok "/go/src/pkg".toList), .done (.ok "/go/src/pkg".toList)]) := by
  decide

theorem phaseOk_facts (t : Thread) (h : phaseOk t) :
    t.ran ≤ 1 ∧ t.finished ≤ t.ran ∧ (t.pc.early = true → t.ran = 0)
    ∧ (t.pc.late = true → t.ran = 1)
    ∧ (t.pc.holdsSlot = true → t.stale = true)
    ∧ (∀ r, t.pc = .done r →
        (t.stale = true → t.ran = 1 ∧ t.finished = 1) ∧ (t.stale = false → t.ran = 0)) := by
  unfold phaseOk at h
  cases hpc : t.pc <;> rw [hpc] at h <;> simp only [] at h
  case done r =>
    rcases h with ⟨hs, hr, hf⟩ | ⟨hs, hr, hf⟩
    · simp [Pc.early, Pc.late, Pc.holdsSlot, hs, hr, hf]
    · simp [Pc.early, Pc.late, Pc.holdsSlot, hs, hr, hf]
  all_goals
    obtain ⟨hs, hr, hf⟩ := h
    simp [Pc.early, Pc.late, Pc.holdsSlot, hs, hr, hf]

theorem sum_eq_countP (f : Thread → Nat) (p : Thread → Bool) : ∀ (l : List Thread),
    (∀ t ∈ l, f t = if p t = true then 1 else 0) → (l.map f).sum = l.countP p := by
  intro l
  induction l with
  | nil => intro _; simp
  | cons a l ih =>
    intro h
    have ha := h a (by simp)
    have := ih (fun t ht => h t (List.mem_cons_of_mem _ ht))
    simp only [List.map_cons, List.sum_cons, List.countP_cons, this, ha]
    omega

/-- C1 as amended: in every state that interleaved calls of `getPackage` can
reach from the start of the process, (1) two different calls on the same key
never hold the key's slot together, so at most one retriever per key runs at
any moment; (2) the retriever has been started as often as the calls together
started it; (3) a call has started it not at all before line 105, exactly once
while it holds the slot after line 105, and never more than once, and a call
that holds the slot found the directory stale; (4) a call that has returned and
had found the directory stale at line 86 has started the retriever itself
exactly once and that run of its own has finished, while a call that has
returned and had found the directory fresh has started none; (5) so once all
calls have returned, the retriever has been started as many times as there are
calls that found the directory stale, not once. -/
theorem retrievals_are_serialised (env : Env) (now : Int) (fs : FS) (pkgs : List Str)
    (sched : List Action) (σ : Sys)
    (h : sysRun env (initSys now fs pkgs) sched = some σ) :
    (∀ i j ti tj, σ.threads.get? i = some ti → σ.threads.get? j = some tj →
        ti.pkg = tj.pkg → ti.pc.holdsSlot = true → tj.pc.holdsSlot = true → i = j)
    ∧ σ.shared.fetched.length = (σ.threads.map (fun t => t.ran)).sum
    ∧ (∀ t ∈ σ.threads,
        t.ran ≤ 1 ∧ (t.pc.early = true → t.ran = 0) ∧ (t.pc.late = true → t.ran = 1)
        ∧ (t.pc.holdsSlot = true → t.stale = true))
    ∧ (∀ t ∈ σ.threads, ∀ r, t.pc = .done r →
        (t.stale = true → t.ran = 1 ∧ t.finished = 1) ∧ (t.stale = false → t.ran = 0))
    ∧ ((∀ t ∈ σ.threads, ∃ r, t.pc = .done r) →
        σ.shared.fetched.length = σ.threads.countP (fun t => t.stale)) := by
  have hinv := inv_sysRun env sched _ σ (inv_init now fs pkgs) h
  have hfacts := fun t ht => phaseOk_facts t (hinv.2.2.2 t ht).1
  refine ⟨?_, hinv.2.2.1, ?_, ?_, ?_⟩
  · intro i j ti tj hi hj hpkg hsi hsj
    obtain ⟨ci, hci⟩ := holdsSlot_holds ti.pc hsi
    obtain ⟨cj, hcj⟩ := holdsSlot_holds tj.pc hsj
    have h1 := hinv.1 ti (List.get?_mem hi) ci (holds_chan _ _ hci)
    have h2 := hinv.1 tj (List.get?_mem hj) cj (holds_chan _ _ hcj)
    rw [hpkg, h2] at h1
    have hc : cj = ci := by simpa using h1
    subst hc
    by_contra hne
    have htwo := countP_two (fun t => t.pc.holds cj) σ.threads i j ti tj hi hj hne hci hcj
    have hone := hinv.2.1 cj
    simp only [] at htwo hone
    split at hone <;> omega
  · intro t ht
    obtain ⟨a, _, b, c, d, _⟩ := hfacts t ht
    exact ⟨a, b, c, d⟩
  · intro t ht r hr
    exact (hfacts t ht).2.2.2.2.2 r hr
  · intro hall
    rw [hinv.2.2.1]
    apply sum_eq_countP
    intro t ht
    obtain ⟨r, hr⟩ := hall t ht
    obtain ⟨h1, h2⟩ := (hfacts t ht).2.2.2.2.2 r hr
    cases hs : t.stale with
    | true => simp [(h1 hs).1]
    | false => simp [h2 hs]

theorem retrievals_are_serialised_witness :
    (∀ i j ti tj, exFinal.threads.get? i = some ti → exFinal.threads.get? j = some tj →
        ti.pkg = tj.pkg → ti.pc.holdsSlot = true → tj.pc.holdsSlot = true → i = j)
    ∧ exFinal.shared.fetched.length = (exFinal.threads.map (fun t => t.ran)).sum
    ∧ (∀ t ∈ exFinal.threads,
        t.ran ≤ 1 ∧ (t.pc.early = true → t.ran = 0) ∧ (t.pc.late = true → t.ran = 1)
        ∧ (t.pc.holdsSlot = true → t.stale = true))
    ∧ (∀ t ∈ exFinal.threads, ∀ r, t.pc = .done r →
        (t.stale = true → t.ran = 1 ∧ t.finished = 1) ∧ (t.stale = false → t.ran = 0))
    ∧ ((∀ t ∈ exFinal.threads, ∃ r, t.pc = .done r) →
        exFinal.shared.fetched.length = exFinal.threads.countP (fun t => t.stale)) :=
  retrievals_are_serialised exOkEnv 1000 exFS ["pkg".toList, "pkg".toList]
    exSchedule exFinal (by rfl)

theorem lookupChan_gpStep (env : Env) (s s1 : Shared) (t t1 : Thread)
    (h : gpStep env s t = some (s1, t1)) (k : Str) (c : Nat)
    (hk : lookupChan s.pending k = some c) : lookupChan s1.pending k = some c := by
  unfold gpStep at h
  cases hpc : t.pc with
  | start =>
    rw [hpc] at h
    simp only [] at h
    split at h
    · simp at h
    · simp only [Option.some.injEq, Prod.mk.injEq] at h
      obtain ⟨rfl, _⟩ := h
      exact hk
    · simp only [Option.some.injEq, Prod.mk.injEq] at h
      obtain ⟨rfl, _⟩ := h
      exact hk
  | lock =>
    rw [hpc] at h
    simp only [] at h
    split at h
    · simp only [Option.some.injEq, Prod.mk.injEq] at h
      obtain ⟨rfl, _⟩ := h
      exact hk
    · rename_i hnone
      simp only [Option.some.injEq, Prod.mk.injEq] at h
      obtain ⟨rfl, _⟩ := h
      have hne : k ≠ t.pkg := by
        rintro rfl
        rw [hnone] at hk
        cases hk
      simp only []
      rw [lookupChan_cons_ne _ _ _ _ (Ne.symm hne)]
      exact hk
  | send c1 =>
    rw [hpc] at h
    simp only [] at h
    split at h
    · simp only [Option.some.injEq, Prod.mk.injEq] at h
      obtain ⟨rfl, _⟩ := h
      exact hk
    · simp at h
  | exec c1 =>
    rw [hpc] at h
    simp only [Option.some.injEq, Prod.mk.injEq] at h
    obtain ⟨rfl, _⟩ := h
    exact hk
  | running c1 =>
    rw [hpc] at h
    simp only [Option.some.injEq, Prod.mk.injEq] at h
    obtain ⟨rfl, _⟩ := h
    exact hk
  | touch c1 res =>
    rw [hpc] at h
    simp only [Option.some.injEq, Prod.mk.injEq] at h
    obtain ⟨rfl, _⟩ := h
    exact hk
  | leave c1 res =>
    rw [hpc] at h
    simp only [Option.some.injEq, Prod.mk.injEq] at h
    obtain ⟨rfl, _⟩ := h
    exact hk
  | done r =>
    rw [hpc] at h
    simp at h

theorem lookupChan_sysStep (env : Env) (σ σ1 : Sys) (a : Action)
    (h : sysStep env σ a = some σ1) (k : Str) (c : Nat)
    (hk : lookupChan σ.shared.pending k = some c) :
    lookupChan σ1.shared.pending k = some c := by
  cases a with
  | tick dt =>
    simp only [sysStep, Option.some.injEq] at h
    subst h
    exact hk
  | run i =>
    simp only [sysStep] at h
    cases hget : σ.threads.get? i with
    | none => rw [hget] at h; simp at h
    | some t =>
      rw [hget] at h
      simp only [] at h
      cases hstep : gpStep env σ.shared t with
      | none => rw [hstep] at h; simp at h
      | some st =>
        rw [hstep] at h
        simp only [Option.some.injEq] at h
        subst h
        exact lookupChan_gpStep env σ.shared st.1 t st.2 hstep k c hk

theorem lookupChan_sysRun (env : Env) : ∀ (sched : List Action) (σ σ1 : Sys),
    sysRun env σ sched = some σ1 → ∀ (k : Str) (c : Nat),
    lookupChan σ.shared.pending k = some c → lookupChan σ1.shared.pending k = some c := by
  intro sched
  induction sched with
  | nil =>
    intro σ σ1 h k c hk
    simp only [sysRun, Option.some.injEq] at h
    subst h; exact hk
  | cons a as ih =>
    intro σ σ1 h k c hk
    simp only [sysRun] at h
    cases hs : sysStep env σ a with
    | none => rw [hs] at h; simp at h
    | some σ2 =>
      rw [hs] at h
      exact ih σ2 σ1 h k c (lookupChan_sysStep env σ σ2 a hs k c hk)

/-- C3 as amended: in every state that interleaved calls of `getPackage` can
reach from the start of the process, `pending` holds an entry for the key of
every call that has started the retriever, and however the calls go on from
there (this call returning, with the retriever having succeeded or failed,
other calls starting, running and returning, time passing), `pending` holds
that same entry in every later state: entries are never removed. -/
theorem pending_entry_remains (env : Env) (now : Int) (fs : FS) (pkgs : List Str)
    (sched : List Action) (σ : Sys)
    (h : sysRun env (initSys now fs pkgs) sched = some σ)
    (t : Thread) (ht : t ∈ σ.threads) (hran : 1 ≤ t.ran) :
    ∃ c, lookupChan σ.shared.pending t.pkg = some c
      ∧ ∀ later σ1, sysRun env σ later = some σ1 →
          lookupChan σ1.shared.pending t.pkg = some c := by
  obtain ⟨c, hc⟩ := ((inv_sysRun env sched _ σ (inv_init now fs pkgs) h).2.2.2 t ht).2 hran
  exact ⟨c, hc, fun later σ1 h1 => lookupChan_sysRun env later σ σ1 h1 t.pkg c hc⟩

theorem pending_entry_remains_witness :
    ∃ c, lookupChan exFinal.shared.pending exReturned.pkg = some c
      ∧ ∀ later σ1, sysRun exOkEnv exFinal later = some σ1 →
          lookupChan σ1.shared.pending exReturned.pkg = some c :=
  pending_entry_remains exOkEnv 1000 exFS ["pkg".toList, "pkg".toList] exSchedule exFinal
    (by rfl) exReturned (by decide) (by decide)

end GoGetProxy
